import Mathlib

/-!
# A verification model of `Open_Table/src/open_table.c`

This file gives a shallow embedding of the Robin-Hood open-addressing hash
table implemented in `open_table.c` and proves properties of its operations.

Modelling conventions:

* Machine integers (`uint32_t`) are modelled as `Nat` with explicit `% 2^32`
  wherever C overflow/truncation can matter (`probe_func`, the `<< 1` grow
  target, the value returned by the user hash function).
* `void *` key and value pointers are modelled as `Option K` / `Option V`;
  `none` is the NULL pointer.  A slot is empty exactly when its `key` field
  is `none`, as in the C code.
* The user-supplied strategies are modelled per the spec's "consistent
  strategies" assumption: the hash strategy is an arbitrary pure function
  `hash : K → Nat` whose result is truncated to 32 bits (`hash32`), and the
  comparison strategy reports equal exactly on equal keys (`DecidableEq K`).
* C `float` load factors are modelled as exact rationals `ℚ`.  All load
  factors appearing in concrete counterexamples are dyadic (3/4, 1/4, 1),
  for which 32-bit floating point comparison against small integers agrees
  exactly with rational comparison.
* `malloc`/`calloc` outcomes are modelled by an explicit `alloc_ok : Bool`
  parameter on `resize`; `calloc` produces all-zero slots, i.e. `emptyEntry`.
  The public operations are modelled with succeeding allocation.
* The unbounded C loops (`for (i = 0; i < ht->size; i++)` and the backward
  shift `while`) are modelled by structural recursion on an explicit fuel;
  the `for` loops get exactly their C iteration count, and the backward
  shift gets fuel `size + 1`, which is proved sufficient for every state
  satisfying the table invariant.
* The NULL-pointer guards on `ht`/`key` arguments concern raw pointers and
  are not representable; the zero-length-key guard is modelled.  `free_key`
  / `free_val` destructor callbacks act on the caller's payloads, not on the
  table state; the slot-clearing done by `remove_entry` itself is modelled.
-/

set_option maxHeartbeats 1000000
set_option linter.unusedSectionVars false

namespace OpenTable

/-- Result codes for hash table operations (`HTResult` in `open_table.h`). -/
inductive HTResult where
  | HT_FAILURE
  | HT_SUCCESS
  | HT_KEY_EXISTS
  | HT_NO_SPACE
  | HT_KEY_NOT_FOUND
  | HT_MEM_ERROR
  | HT_INVALID_ARG
  | HT_INVALID_STATE
deriving DecidableEq, Repr

open HTResult

/-- An entry in the hash table (`struct htentry`).  `key = none` models a
NULL key pointer, i.e. an empty slot. -/
structure HTentry (K V : Type) where
  hash_key : Nat
  psl : Nat
  key : Option K
  value : Option V
deriving DecidableEq, Repr

/-- The hash table container (`struct hashtab`).  The function-pointer
fields are modelled as ambient parameters of the operations. -/
structure HashTab (K V : Type) where
  table : List (HTentry K V)
  size : Nat
  active : Nat
  load_factor : ℚ
  min_load_factor : ℚ
deriving DecidableEq, Repr

/-- The all-zero entry produced by `calloc`: zero hash, zero psl, NULL key
and value pointers. -/
def emptyEntry {K V : Type} : HTentry K V :=
  { hash_key := 0, psl := 0, key := none, value := none }

/-- `new_entry.psl++`: increment an entry's probe sequence length. -/
def incPsl {K V : Type} (e : HTentry K V) : HTentry K V :=
  { e with psl := e.psl + 1 }

/-- `psl--`: decrement an entry's probe sequence length (backward shift). -/
def decPsl {K V : Type} (e : HTentry K V) : HTentry K V :=
  { e with psl := e.psl - 1 }

/-- `entry->key = NULL`: mark a slot empty, leaving the other fields stale
as the C code does. -/
def clearKey {K V : Type} (e : HTentry K V) : HTentry K V :=
  { e with key := none }

/-- `entry->key = NULL; entry->value = NULL` on removal (hash/psl stale). -/
def clearEntry {K V : Type} (e : HTentry K V) : HTentry K V :=
  { e with key := none, value := none }

@[simp] theorem incPsl_key {K V : Type} (e : HTentry K V) :
    (incPsl e).key = e.key := rfl

@[simp] theorem incPsl_value {K V : Type} (e : HTentry K V) :
    (incPsl e).value = e.value := rfl

@[simp] theorem incPsl_hash_key {K V : Type} (e : HTentry K V) :
    (incPsl e).hash_key = e.hash_key := rfl

@[simp] theorem incPsl_psl {K V : Type} (e : HTentry K V) :
    (incPsl e).psl = e.psl + 1 := rfl

@[simp] theorem decPsl_key {K V : Type} (e : HTentry K V) :
    (decPsl e).key = e.key := rfl

@[simp] theorem decPsl_value {K V : Type} (e : HTentry K V) :
    (decPsl e).value = e.value := rfl

@[simp] theorem decPsl_hash_key {K V : Type} (e : HTentry K V) :
    (decPsl e).hash_key = e.hash_key := rfl

@[simp] theorem decPsl_psl {K V : Type} (e : HTentry K V) :
    (decPsl e).psl = e.psl - 1 := rfl

@[simp] theorem clearKey_key {K V : Type} (e : HTentry K V) :
    (clearKey e).key = none := rfl

@[simp] theorem clearKey_value {K V : Type} (e : HTentry K V) :
    (clearKey e).value = e.value := rfl

@[simp] theorem clearKey_hash_key {K V : Type} (e : HTentry K V) :
    (clearKey e).hash_key = e.hash_key := rfl

@[simp] theorem clearKey_psl {K V : Type} (e : HTentry K V) :
    (clearKey e).psl = e.psl := rfl

@[simp] theorem clearEntry_key {K V : Type} (e : HTentry K V) :
    (clearEntry e).key = none := rfl

@[simp] theorem clearEntry_value {K V : Type} (e : HTentry K V) :
    (clearEntry e).value = none := rfl

@[simp] theorem clearEntry_hash_key {K V : Type} (e : HTentry K V) :
    (clearEntry e).hash_key = e.hash_key := rfl

@[simp] theorem clearEntry_psl {K V : Type} (e : HTentry K V) :
    (clearEntry e).psl = e.psl := rfl

/-- `probe_func`: linear probing `(k + i) & (m - 1)` on `uint32_t`
(the addition wraps at 2^32). -/
def probe_func (k i m : Nat) : Nat :=
  ((k + i) % 2 ^ 32) &&& (m - 1)

/-- The user hash strategy returns a `uint32_t`; `hash32` truncates the
modelled hash function accordingly. -/
def hash32 {K : Type} (hash : K → Nat) (k : K) : Nat :=
  hash k % 2 ^ 32

/-- `validate_load_factors` from `open_table.c`. -/
def validate_load_factors (load_factor min_load_factor : ℚ) : HTResult :=
  if load_factor ≤ 0 ∨ load_factor > 1 then HT_INVALID_ARG
  else if min_load_factor < 0 ∨ min_load_factor ≥ load_factor then HT_INVALID_ARG
  else HT_SUCCESS

/-- `validate_size`: rejects a zero new size and sizes above
`UINT32_MAX / 2 = 2147483647`. -/
def validate_size (_size new_size : Nat) : HTResult :=
  if new_size = 0 ∨ new_size > (2 ^ 32 - 1) / 2 then HT_FAILURE else HT_SUCCESS

/-- `ht_create`: validates load factors and builds the fresh table of
capacity 2 with zero active entries (allocation modelled as succeeding;
`calloc` zeroes the two slots). -/
def ht_create (K V : Type) (load_factor min_load_factor : ℚ) :
    Option (HashTab K V) :=
  if validate_load_factors load_factor min_load_factor ≠ HT_SUCCESS then none
  else some { table := List.replicate 2 emptyEntry, size := 2, active := 0,
              load_factor := load_factor, min_load_factor := min_load_factor }

variable {K V : Type} [DecidableEq K]

/-- The search loop of `ht_search`, for probe steps `i, i+1, …` with
`fuel = ht.size - i` remaining iterations.  Out-of-range slot access (which
cannot happen when `table.length = size`) reads as an empty slot. -/
def ht_searchFrom (ht : HashTab K V) (hash_key : Nat) (key : K) :
    Nat → Nat → Option V
  | _, 0 => none
  | i, fuel + 1 =>
    if (ht.table.getD (probe_func hash_key i ht.size) emptyEntry).key = none then
      none
    else if (ht.table.getD (probe_func hash_key i ht.size) emptyEntry).hash_key
          = hash_key ∧
        (ht.table.getD (probe_func hash_key i ht.size) emptyEntry).key
          = some key then
      (ht.table.getD (probe_func hash_key i ht.size) emptyEntry).value
    else if (ht.table.getD (probe_func hash_key i ht.size) emptyEntry).psl < i
    then none
    else ht_searchFrom ht hash_key key (i + 1) fuel

/-- `ht_search`: returns the stored value pointer on a match and NULL
(`none`) otherwise; a NULL stored value is indistinguishable from a miss. -/
def ht_search (hash : K → Nat) (ht : HashTab K V) (key : K) (key_len : Nat) :
    Option V :=
  if key_len = 0 then none
  else ht_searchFrom ht (hash32 hash key) key 0 ht.size

/-- The Robin-Hood placement loop of `insert_entry`: at probe step `i` with
carried entry `new_entry`; swaps with a richer resident, increments the
carried psl each step, places at the first empty slot.  Returns the C
result together with the (possibly mutated, on both exits) slot array. -/
def insertFrom (m hash_key : Nat) :
    Nat → Nat → HTentry K V → List (HTentry K V) →
    HTResult × List (HTentry K V)
  | _, 0, _, table => (HT_FAILURE, table)
  | i, fuel + 1, new_entry, table =>
    if (table.getD (probe_func hash_key i m) emptyEntry).key = none then
      (HT_SUCCESS, table.set (probe_func hash_key i m) new_entry)
    else if new_entry.psl > (table.getD (probe_func hash_key i m) emptyEntry).psl
    then
      insertFrom m hash_key (i + 1) fuel
        (incPsl (table.getD (probe_func hash_key i m) emptyEntry))
        (table.set (probe_func hash_key i m) new_entry)
    else
      insertFrom m hash_key (i + 1) fuel (incPsl new_entry) table

/-- `insert_entry`: runs the placement loop on a fresh entry with psl 0 and
increments the active count exactly on success. -/
def insert_entry (ht : HashTab K V) (hash_key : Nat) (key : K)
    (value : Option V) : HTResult × HashTab K V :=
  if (insertFrom ht.size hash_key 0 ht.size
      { hash_key := hash_key, psl := 0, key := some key, value := value }
      ht.table).1 = HT_SUCCESS then
    (HT_SUCCESS, { ht with
      table := (insertFrom ht.size hash_key 0 ht.size
        { hash_key := hash_key, psl := 0, key := some key, value := value }
        ht.table).2,
      active := ht.active + 1 })
  else
    ((insertFrom ht.size hash_key 0 ht.size
        { hash_key := hash_key, psl := 0, key := some key, value := value }
        ht.table).1,
     { ht with table := (insertFrom ht.size hash_key 0 ht.size
        { hash_key := hash_key, psl := 0, key := some key, value := value }
        ht.table).2 })

/-- `rehash_entries`: re-inserts every occupied slot of the old store, in
old-store index order, discarding each `insert_entry` result as the C code
does. -/
def rehash_entries (ht : HashTab K V) (old_table : List (HTentry K V)) :
    HashTab K V :=
  old_table.foldl (fun acc e =>
    e.key.elim acc (fun k => (insert_entry acc e.hash_key k e.value).2)) ht

/-- `resize`: validates the new size, then (modelling `calloc` by
`alloc_ok`) either fails with `HT_MEM_ERROR` leaving the table untouched,
or swaps in a zeroed store of the new capacity and rehashes the old
entries. -/
def resize (alloc_ok : Bool) (ht : HashTab K V) (new_size : Nat) :
    HTResult × HashTab K V :=
  if validate_size ht.size new_size ≠ HT_SUCCESS then
    (validate_size ht.size new_size, ht)
  else if alloc_ok = false then (HT_MEM_ERROR, ht)
  else
    (HT_SUCCESS, rehash_entries
      { ht with table := List.replicate new_size emptyEntry,
                size := new_size, active := 0 }
      ht.table)

/-- `ht_insert`: rejects a zero-length key, reports `HT_KEY_EXISTS` when
`ht_search` returns a non-NULL value, grows (to `size << 1`, a wrapping
`uint32_t` shift) when `active + 1 > size * load_factor`, and finally runs
the placement loop. -/
def ht_insert (hash : K → Nat) (ht : HashTab K V) (key : K) (key_len : Nat)
    (value : Option V) : HTResult × HashTab K V :=
  if key_len = 0 then (HT_INVALID_ARG, ht)
  else if (ht_search hash ht key key_len).isSome then (HT_KEY_EXISTS, ht)
  else if ((ht.active : ℚ) + 1 > (ht.size : ℚ) * ht.load_factor) then
    if validate_size ht.size ((ht.size * 2) % 2 ^ 32) ≠ HT_SUCCESS then
      (validate_size ht.size ((ht.size * 2) % 2 ^ 32), ht)
    else if (resize true ht ((ht.size * 2) % 2 ^ 32)).1 ≠ HT_SUCCESS then
      resize true ht ((ht.size * 2) % 2 ^ 32)
    else insert_entry (resize true ht ((ht.size * 2) % 2 ^ 32)).2
      (hash32 hash key) key value
  else insert_entry ht (hash32 hash key) key value

/-- The backward-shift loop of `shift_entries_backward`.  `probe_count` is
the probe step used for the next examined slot (the C code pre-increments
its `probe_count` pointer).  While the next slot is occupied with positive
psl, it is moved one slot backward with its psl decremented; finally the
gap is closed by NULLing only the key field (value/hash/psl stay stale, as
in the C).  The fuel-exhaustion branch also closes the gap; it is not
reached from any state satisfying the table invariant. -/
def shiftFrom (m hash_key : Nat) :
    Nat → Nat → Nat → List (HTentry K V) → List (HTentry K V)
  | 0, current_index, _, table =>
    table.set current_index (clearKey (table.getD current_index emptyEntry))
  | fuel + 1, current_index, probe_count, table =>
    if (table.getD (probe_func hash_key probe_count m) emptyEntry).key ≠ none ∧
        (table.getD (probe_func hash_key probe_count m) emptyEntry).psl > 0 then
      shiftFrom m hash_key fuel (probe_func hash_key probe_count m)
        (probe_count + 1)
        (table.set current_index
          (decPsl (table.getD (probe_func hash_key probe_count m) emptyEntry)))
    else
      table.set current_index (clearKey (table.getD current_index emptyEntry))

/-- `remove_table_update`: decrements the active count and shrinks to half
capacity when `active < size * min_load_factor` and `size > 2`, discarding
the `resize` result as the C code does. -/
def remove_table_update (ht : HashTab K V) : HashTab K V :=
  if ((ht.active - 1 : Nat) : ℚ) < (ht.size : ℚ) * ht.min_load_factor ∧
      2 < ht.size then
    (resize true { ht with active := ht.active - 1 } (ht.size / 2)).2
  else { ht with active := ht.active - 1 }

/-- The probe loop of `remove_entry`: walks the probe sequence like search;
on a match it clears the slot's key and value (the destructor callbacks act
only on the caller's payloads), backward-shifts, and updates the counters. -/
def removeFrom (hash_key : Nat) (key : K) (ht : HashTab K V) :
    Nat → Nat → HTResult × HashTab K V
  | _, 0 => (HT_KEY_NOT_FOUND, ht)
  | probe_count, fuel + 1 =>
    if (ht.table.getD (probe_func hash_key probe_count ht.size)
        emptyEntry).key = none then
      (HT_KEY_NOT_FOUND, ht)
    else if (ht.table.getD (probe_func hash_key probe_count ht.size)
          emptyEntry).hash_key = hash_key ∧
        (ht.table.getD (probe_func hash_key probe_count ht.size)
          emptyEntry).key = some key then
      (HT_SUCCESS, remove_table_update { ht with
        table := shiftFrom ht.size hash_key (ht.size + 1)
          (probe_func hash_key probe_count ht.size) (probe_count + 1)
          (ht.table.set (probe_func hash_key probe_count ht.size)
            (clearEntry (ht.table.getD (probe_func hash_key probe_count ht.size)
              emptyEntry))) })
    else if (ht.table.getD (probe_func hash_key probe_count ht.size)
        emptyEntry).psl < probe_count then
      (HT_KEY_NOT_FOUND, ht)
    else removeFrom hash_key key ht (probe_count + 1) fuel

/-- `remove_entry`. -/
def remove_entry (ht : HashTab K V) (hash_key : Nat) (key : K) :
    HTResult × HashTab K V :=
  removeFrom hash_key key ht 0 ht.size

/-- `ht_remove`. -/
def ht_remove (hash : K → Nat) (ht : HashTab K V) (key : K) (key_len : Nat) :
    HTResult × HashTab K V :=
  if key_len = 0 then (HT_INVALID_ARG, ht)
  else remove_entry ht (hash32 hash key) key

/-- `ht_capacity`. -/
def ht_capacity (ht : HashTab K V) : Nat := ht.size



/-! ## Concrete example states

These states are obtained by running the modelled public operations from a
freshly created table, so each is reachable through the public API.  `idh`
is the identity hash strategy on `Nat` keys (a legitimate user strategy:
pure, deterministic and consistent with equality-as-comparison). -/

/-- Identity hash strategy used in the concrete examples. -/
def idh : Nat → Nat := fun k => k

/-- The fresh table created with `load_factor = 3/4`,
`min_load_factor = 1/4` (the header's default configuration). -/
def exFresh : HashTab Nat Nat :=
  { table := List.replicate 2 emptyEntry, size := 2, active := 0,
    load_factor := mkRat 3 4, min_load_factor := mkRat 1 4 }

/-- `exFresh` after `ht_insert(0, NULL)`: key 0 stored with a NULL value. -/
def exNull1 : HashTab Nat Nat := (ht_insert idh exFresh 0 1 none).2

/-- `exNull1` after `ht_insert(0, &7)`: key 0 now occupies two slots, one
with a NULL value and one with value 7. -/
def exNull2 : HashTab Nat Nat := (ht_insert idh exNull1 0 1 (some 7)).2

/-- `exNull2` after `ht_remove(0)`: the NULL-valued copy of key 0 was
removed, the other copy remains. -/
def exNullRemoved : HashTab Nat Nat := (ht_remove idh exNull2 0 1).2

/-- `exFresh` after inserting keys 0 and 1 (values 10 and 11): capacity 4,
key 0 at slot 0 (psl 0) and key 1 at slot 1 (psl 0). -/
def exPair : HashTab Nat Nat :=
  (ht_insert idh (ht_insert idh exFresh 0 1 (some 10)).2 1 1 (some 11)).2

/-- A fresh table with `load_factor = 1`, `min_load_factor = 3/4` — a
configuration accepted by `validate_load_factors`. -/
def exG0 : HashTab Nat Nat :=
  { table := List.replicate 2 emptyEntry, size := 2, active := 0,
    load_factor := mkRat 1 1, min_load_factor := mkRat 3 4 }

/-- `exG0` after inserting keys 0..3 (values 100..103). -/
def exG4 : HashTab Nat Nat :=
  (ht_insert idh (ht_insert idh (ht_insert idh (ht_insert idh exG0
    0 1 (some 100)).2 1 1 (some 101)).2 2 1 (some 102)).2 3 1 (some 103)).2

/-- `exG4` after inserting keys 4 and 5 (values 104 and 105): capacity 8
with the six keys 0..5 at slots 0..5, all with psl 0. -/
def exG6 : HashTab Nat Nat :=
  (ht_insert idh (ht_insert idh exG4 4 1 (some 104)).2 5 1 (some 105)).2

/-! ## Claim theorems: error handling of `resize` and `ht_create` -/

/-- C6: if allocation of the new slot store fails during `resize` (after
the size validation that guards the allocation), the resize returns
`HT_MEM_ERROR` and the table is returned exactly as it was: same capacity,
same active count, same slots, and the live store is not swapped. -/
theorem claim_C6_resize_alloc_failure {K V : Type} [DecidableEq K]
    (ht : HashTab K V) (new_size : Nat)
    (h : validate_size ht.size new_size = HT_SUCCESS) :
    resize false ht new_size = (HT_MEM_ERROR, ht) := by
  simp [resize, h]

/-- Witness for C6 at a concrete table and size. -/
theorem claim_C6_resize_alloc_failure_witness :
    resize false exFresh 4 = (HT_MEM_ERROR, exFresh) :=
  claim_C6_resize_alloc_failure exFresh 4 (by with_unfolding_all decide)

/-- C9: `ht_create` fails exactly when the load factors violate the
documented ranges (`load_factor ∈ (0,1]`, `min_load_factor ∈
[0, load_factor)`), and any configuration inside the ranges yields the
fresh table: capacity exactly 2, zero active entries, two zeroed slots,
and the requested load factors (allocation modelled as succeeding). -/
theorem claim_C9_create_validation (K V : Type) (lf mlf : ℚ) :
    (ht_create K V lf mlf = none ↔ (lf ≤ 0 ∨ 1 < lf ∨ mlf < 0 ∨ lf ≤ mlf)) ∧
    (∀ ht, ht_create K V lf mlf = some ht →
      ht.size = 2 ∧ ht.active = 0 ∧ ht.table = List.replicate 2 emptyEntry ∧
      ht.load_factor = lf ∧ ht.min_load_factor = mlf) := by
  have hval : validate_load_factors lf mlf = HT_SUCCESS ↔
      ¬(lf ≤ 0 ∨ 1 < lf ∨ mlf < 0 ∨ lf ≤ mlf) := by
    unfold validate_load_factors
    split_ifs with h1 h2
    · exact iff_of_false (by decide)
        (not_not_intro (h1.elim Or.inl (fun h => Or.inr (Or.inl h))))
    · exact iff_of_false (by decide)
        (not_not_intro (h2.elim (fun h => Or.inr (Or.inr (Or.inl h)))
          (fun h => Or.inr (Or.inr (Or.inr h)))))
    · refine iff_of_true rfl ?_
      push_neg at h1 h2 ⊢
      exact ⟨h1.1, h1.2, h2.1, h2.2⟩
  constructor
  · have hite : ht_create K V lf mlf = none ↔
        validate_load_factors lf mlf ≠ HT_SUCCESS := by
      simp only [ht_create]
      split_ifs with h <;> simp [h]
    rw [hite]
    simp only [ne_eq, hval, not_not]
  · intro ht h
    simp only [ht_create] at h
    split_ifs at h
    cases h
    refine ⟨rfl, rfl, rfl, rfl, rfl⟩

/-- Witness for C9: the default configuration is accepted and produces the
fresh capacity-2 table. -/
theorem claim_C9_create_validation_witness :
    exFresh.size = 2 ∧ exFresh.active = 0 ∧
    exFresh.table = List.replicate 2 emptyEntry ∧
    exFresh.load_factor = mkRat 3 4 ∧ exFresh.min_load_factor = mkRat 1 4 :=
  (claim_C9_create_validation Nat Nat (mkRat 3 4) (mkRat 1 4)).2 exFresh
    (by with_unfolding_all decide)

/-! ## Counterexamples arising from NULL-valued entries

`ht_insert` decides "duplicate key" by the truthiness of `ht_search`, and
`ht_search` returns the stored value pointer itself, so a key stored with a
NULL value is invisible to the duplicate check.  The following theorems
exploit this on concrete reachable states. -/

/-- C2 counterexample: `exNull1` is reachable (created with the default
configuration, then `ht_insert(0, NULL)` succeeded) and key 0 is present in
it, yet `ht_insert` of key 0 returns `HT_SUCCESS` — not `HT_KEY_EXISTS` —
and mutates the table. -/
theorem claim_C2_duplicate_insert_counterexample :
    ht_create Nat Nat (mkRat 3 4) (mkRat 1 4) = some exFresh ∧
    ht_insert idh exFresh 0 1 none = (HT_SUCCESS, exNull1) ∧
    (exNull1.table.getD 0 emptyEntry).key = some 0 ∧
    (ht_insert idh exNull1 0 1 (some 7)).1 = HT_SUCCESS ∧
    (ht_insert idh exNull1 0 1 (some 7)).1 ≠ HT_KEY_EXISTS ∧
    (ht_insert idh exNull1 0 1 (some 7)).2 ≠ exNull1 := by
  with_unfolding_all decide

/-- C3 counterexample: in the reachable state `exNull2`, key 0 occupies two
slots (value NULL and value 7).  `ht_remove(0)` succeeds, yet afterwards
`ht_search(0)` returns the value 7 (not `NotFound`) and a second
`ht_remove(0)` returns `HT_SUCCESS` (not `HT_KEY_NOT_FOUND`). -/
theorem claim_C3_deletion_counterexample :
    ht_insert idh exNull1 0 1 (some 7) = (HT_SUCCESS, exNull2) ∧
    ht_remove idh exNull2 0 1 = (HT_SUCCESS, exNullRemoved) ∧
    ht_search idh exNullRemoved 0 1 = some 7 ∧
    (ht_remove idh exNullRemoved 0 1).1 = HT_SUCCESS := by
  with_unfolding_all decide

/-- C4 counterexample: `exPair` is reachable (two successful inserts from a
fresh default-config table).  For key 0 at probe step `i = 1` the probed
slot (index 1) is occupied with `psl = 0 < 1`, yet key 0 is not absent — it
sits at probe step 0.  The `psl < i` condition alone does not imply
absence; only a walk that already passed steps `0..i-1` without a match may
conclude absence. -/
theorem claim_C4_rh_invariant_counterexample :
    ht_insert idh (ht_insert idh exFresh 0 1 (some 10)).2 1 1 (some 11) =
      (HT_SUCCESS, exPair) ∧
    (ht_insert idh exFresh 0 1 (some 10)).1 = HT_SUCCESS ∧
    probe_func (hash32 idh 0) 1 exPair.size = 1 ∧
    (exPair.table.getD 1 emptyEntry).key ≠ none ∧
    (exPair.table.getD 1 emptyEntry).psl < 1 ∧
    (exPair.table.getD 0 emptyEntry).key = some 0 := by
  with_unfolding_all decide

/-! ## C7: the rehash-overflow defect

With the accepted configuration `load_factor = 1`, `min_load_factor = 3/4`,
a remove can shrink the table to a capacity smaller than the number of live
entries.  `rehash_entries` then calls `insert_entry` on a full store; the
placement loop exhausts its `capacity` probe steps and returns
`HT_FAILURE`, which `rehash_entries` silently discards — the entry is
dropped and its key/value are leaked, while `resize` still reports
`HT_SUCCESS`.  This contradicts the spec's resize-transparency and
"never silently swallowed" requirements. -/

/-- C7 (code bug): from a fresh table with `load_factor = 1`,
`min_load_factor = 3/4`, all six inserts of keys 0..5 succeed (capacity
grows to 8); removing key 0 then succeeds and triggers a shrink to
capacity 4, after which key 4 — inserted successfully and never removed —
has vanished: `ht_search(4)` returns NULL and only 4 entries remain. -/
theorem claim_C7_resize_transparency_bug :
    ht_create Nat Nat (mkRat 1 1) (mkRat 3 4) = some exG0 ∧
    (ht_insert idh exG0 0 1 (some 100)).1 = HT_SUCCESS ∧
    (ht_insert idh (ht_insert idh exG0 0 1 (some 100)).2 1 1 (some 101)).1 =
      HT_SUCCESS ∧
    (ht_insert idh (ht_insert idh (ht_insert idh exG0 0 1 (some 100)).2 1 1
      (some 101)).2 2 1 (some 102)).1 = HT_SUCCESS ∧
    (ht_insert idh (ht_insert idh (ht_insert idh (ht_insert idh exG0 0 1
      (some 100)).2 1 1 (some 101)).2 2 1 (some 102)).2 3 1 (some 103)).1 =
      HT_SUCCESS ∧
    (ht_insert idh exG4 4 1 (some 104)).1 = HT_SUCCESS ∧
    (ht_insert idh (ht_insert idh exG4 4 1 (some 104)).2 5 1 (some 105)).1 =
      HT_SUCCESS ∧
    ht_search idh exG6 4 1 = some 104 ∧
    (ht_remove idh exG6 0 1).1 = HT_SUCCESS ∧
    (ht_remove idh exG6 0 1).2.size = 4 ∧
    (ht_remove idh exG6 0 1).2.active = 4 ∧
    ht_search idh (ht_remove idh exG6 0 1).2 4 1 = none := by
  with_unfolding_all decide

/-! ## Probe arithmetic

`probe_func` is linear probing: for a power-of-two capacity `m = 2^j`
(`j ≤ 32`), the bitmask computes exactly `(k + i) % m`. -/

theorem probe_func_eq_mod {m j : Nat} (hm : m = 2 ^ j) (hj : j ≤ 32)
    (k i : Nat) : probe_func k i m = (k + i) % m := by
  subst hm
  unfold probe_func
  rw [Nat.and_pow_two_sub_one_eq_mod]
  exact Nat.mod_mod_of_dvd _ (Nat.pow_dvd_pow 2 hj)

theorem probe_func_lt (k i m : Nat) (hm : 0 < m) : probe_func k i m < m :=
  Nat.lt_of_le_of_lt Nat.and_le_right (by omega)

theorem probe_func_inj {m j : Nat} (hm : m = 2 ^ j) (hj : j ≤ 32)
    {k i i' : Nat} (hi : i < m) (hi' : i' < m)
    (h : probe_func k i m = probe_func k i' m) : i = i' := by
  rw [probe_func_eq_mod hm hj, probe_func_eq_mod hm hj] at h
  have h2 : i ≡ i' [MOD m] := Nat.ModEq.add_left_cancel' k h
  have h3 : i % m = i' % m := h2
  rwa [Nat.mod_eq_of_lt hi, Nat.mod_eq_of_lt hi'] at h3

/-- The index one step back in probe order. -/
def prevIdx (m i : Nat) : Nat := (i + m - 1) % m

theorem prevIdx_of_mod {m : Nat} (hm : 0 < m) (x : Nat) :
    prevIdx m ((x + 1) % m) = x % m := by
  unfold prevIdx
  have h1 : (x + 1) % m + m - 1 = (x + 1) % m + (m - 1) := by
    have := Nat.mod_lt (x + 1) hm
    omega
  rw [h1, Nat.mod_add_mod]
  have h2 : x + 1 + (m - 1) = x + m := by omega
  rw [h2, Nat.add_mod_right]

theorem prevIdx_probe_succ {m j : Nat} (hm : m = 2 ^ j) (hj : j ≤ 32)
    (k i : Nat) : prevIdx m (probe_func k (i + 1) m) = probe_func k i m := by
  have hpos : 0 < m := by subst hm; exact Nat.pos_pow_of_pos j (by omega)
  rw [probe_func_eq_mod hm hj, probe_func_eq_mod hm hj]
  exact prevIdx_of_mod hpos (k + i)

theorem succ_mod_ne {m : Nat} (hm : 2 ≤ m) (x : Nat) :
    (x + 1) % m ≠ x % m := by
  have h1 : (x + 1) % m = (x % m + 1) % m := by
    conv_lhs => rw [Nat.add_mod]
    congr 1
    rw [Nat.mod_eq_of_lt (by omega : (1:Nat) < m)]
  have hy : x % m < m := Nat.mod_lt _ (by omega)
  rcases Nat.lt_or_ge (x % m + 1) m with h | h
  · rw [h1, Nat.mod_eq_of_lt h]; omega
  · have h2 : x % m + 1 = m := by omega
    rw [h1, h2, Nat.mod_self]
    omega

theorem probe_func_succ_ne {m j : Nat} (hm : m = 2 ^ j) (hj : j ≤ 32)
    (hm2 : 2 ≤ m) (k i : Nat) :
    probe_func k (i + 1) m ≠ probe_func k i m := by
  rw [probe_func_eq_mod hm hj, probe_func_eq_mod hm hj]
  exact succ_mod_ne hm2 (k + i)

/-- Every index below `m` is hit by the probe sequence within `m` steps of
any starting step. -/
theorem probe_func_surj {m j : Nat} (hm : m = 2 ^ j) (hj : j ≤ 32)
    (k base : Nat) {idx : Nat} (hidx : idx < m) :
    ∃ d, d < m ∧ probe_func k (base + d) m = idx := by
  have hpos : 0 < m := by omega
  refine ⟨(m + idx - (k + base) % m) % m, Nat.mod_lt _ hpos, ?_⟩
  rw [probe_func_eq_mod hm hj]
  have h1 : (k + base) % m < m := Nat.mod_lt _ hpos
  have h2 : (k + base) % m + (m + idx - (k + base) % m) = m + idx := by omega
  calc (k + (base + (m + idx - (k + base) % m) % m)) % m
      = (k + base + (m + idx - (k + base) % m) % m) % m := by
        rw [Nat.add_assoc]
    _ = (k + base + (m + idx - (k + base) % m)) % m := Nat.add_mod_mod _ _ _
    _ = ((k + base) % m + (m + idx - (k + base) % m)) % m :=
        (Nat.mod_add_mod _ _ _).symm
    _ = idx := by rw [h2, Nat.add_mod_left, Nat.mod_eq_of_lt hidx]

/-! ## List utilities -/

theorem getD_set_self {α : Type} (l : List α) (i : Nat) (a d : α)
    (h : i < l.length) : (l.set i a).getD i d = a := by
  simp [List.getD_eq_getElem?_getD, List.getElem?_set_self h]

theorem getD_set_ne {α : Type} (l : List α) (i j : Nat) (a d : α)
    (h : i ≠ j) : (l.set i a).getD j d = l.getD j d := by
  simp [List.getD_eq_getElem?_getD, List.getElem?_set_ne h]

theorem getD_of_ge {α : Type} (l : List α) (i : Nat) (d : α)
    (h : l.length ≤ i) : l.getD i d = d := by
  simp [List.getD_eq_getElem?_getD, List.getElem?_eq_none h]

theorem getD_eq_get {α : Type} (l : List α) (i : Nat) (d : α)
    (h : i < l.length) : l.getD i d = l.get ⟨i, h⟩ := by
  simp [List.getD_eq_getElem?_getD, List.getElem?_eq_getElem h]

theorem countP_set {α : Type} (p : α → Bool) (l : List α) (i : Nat) (a : α)
    (h : i < l.length) :
    (l.set i a).countP p + (if p (l.getD i a) then 1 else 0) =
      l.countP p + (if p a then 1 else 0) := by
  induction l generalizing i with
  | nil => simp at h
  | cons x xs ih =>
    cases i with
    | zero => simp [List.countP_cons]; omega
    | succ n =>
      have hn : n < xs.length := by simpa using h
      have := ih n hn
      simp only [List.set, List.countP_cons, List.getD_cons_succ]
      omega

/-! ## The table invariant

The data invariant maintained by the Robin-Hood code, split into per-slot
`Bool` checkers so that it is decidable on concrete tables:

* `entryOk`: an occupied slot caches the 32-bit hash of its key, its psl is
  below the capacity, and the slot sits exactly `psl` probe steps after its
  hash's natural position (`(hash_key + psl) % m = index`);
* `runOk`: a displaced occupied slot (`psl > 0`) has an occupied
  predecessor in probe order whose psl is at least `psl - 1` — the
  invariant that justifies the `psl < i` early termination;
* `hasStopper`: some slot is empty or has `psl = 0`, which bounds the
  backward-shift loop of removal. -/

/-- Number of occupied slots. -/
def countOcc (t : List (HTentry K V)) : Nat := t.countP (fun e => e.key.isSome)

/-- Per-slot cached-hash / psl-position checker. -/
def entryOk (hash : K → Nat) (m i : Nat) (e : HTentry K V) : Bool :=
  match e.key with
  | none => true
  | some k =>
    (e.hash_key == hash32 hash k) && decide (e.psl < m) &&
      ((e.hash_key + e.psl) % m == i)

/-- Per-slot Robin-Hood run checker. -/
def runOk (m : Nat) (t : List (HTentry K V)) (i : Nat) : Bool :=
  match (t.getD i emptyEntry).key with
  | none => true
  | some _ =>
    if (t.getD i emptyEntry).psl = 0 then true
    else
      (t.getD (prevIdx m i) emptyEntry).key.isSome &&
        decide ((t.getD i emptyEntry).psl ≤
          (t.getD (prevIdx m i) emptyEntry).psl + 1)

/-- The slot-array invariant. -/
def TableOk (hash : K → Nat) (m : Nat) (t : List (HTentry K V)) : Prop :=
  t.length = m ∧
  (∀ i, i < m → entryOk hash m i (t.getD i emptyEntry) = true) ∧
  (∀ i, i < m → runOk m t i = true)

/-- Reachable capacities: powers of two between 2 and 2^30 (`validate_size`
rejects growth beyond `UINT32_MAX/2`, so doubling keeps the exponent below
31). -/
def SizeOk (m : Nat) : Prop := ∃ j, j < 31 ∧ 1 ≤ j ∧ m = 2 ^ j

/-- Some slot is empty or sits at its natural position. -/
def hasStopper (m : Nat) (t : List (HTentry K V)) : Prop :=
  ∃ i, i < m ∧
    ((t.getD i emptyEntry).key = none ∨ (t.getD i emptyEntry).psl = 0)

/-- The structural invariant used by the search/insert correctness
theorems. -/
def CoreInv (hash : K → Nat) (ht : HashTab K V) : Prop :=
  SizeOk ht.size ∧ TableOk hash ht.size ht.table

/-- The full invariant of reachable states: structure, exact active count,
validated load factors, and a stopper slot. -/
def Inv (hash : K → Nat) (ht : HashTab K V) : Prop :=
  CoreInv hash ht ∧
  ht.active = countOcc ht.table ∧
  0 < ht.load_factor ∧ ht.load_factor ≤ 1 ∧
  0 ≤ ht.min_load_factor ∧ ht.min_load_factor < ht.load_factor ∧
  hasStopper ht.size ht.table

/-- Key/value pair stored at some slot. -/
def hasPair (t : List (HTentry K V)) (k : K) (v : Option V) : Prop :=
  ∃ i, i < t.length ∧ (t.getD i emptyEntry).key = some k ∧
    (t.getD i emptyEntry).value = v

/-- Key stored at some slot. -/
def hasKey (t : List (HTentry K V)) (k : K) : Prop :=
  ∃ i, i < t.length ∧ (t.getD i emptyEntry).key = some k

/-- Number of slots holding key `k`. -/
def keyCount (t : List (HTentry K V)) (k : K) : Nat :=
  t.countP (fun e => e.key == some k)

/-! ### Decidability of the invariant predicates

The bounded existentials are reflected through `Finset.range` so that the
invariants can be checked by `decide` on concrete reachable states. -/

instance (m : Nat) : Decidable (SizeOk m) :=
  decidable_of_iff (∃ j ∈ Finset.range 31, 1 ≤ j ∧ m = 2 ^ j) (by
    constructor
    · rintro ⟨j, hj, h1, h2⟩
      exact ⟨j, Finset.mem_range.mp hj, h1, h2⟩
    · rintro ⟨j, hj, h1, h2⟩
      exact ⟨j, Finset.mem_range.mpr hj, h1, h2⟩)

instance (m : Nat) (t : List (HTentry K V)) : Decidable (hasStopper m t) :=
  decidable_of_iff (∃ i ∈ Finset.range m,
      (t.getD i emptyEntry).key = none ∨ (t.getD i emptyEntry).psl = 0) (by
    constructor
    · rintro ⟨i, hi, h⟩
      exact ⟨i, Finset.mem_range.mp hi, h⟩
    · rintro ⟨i, hi, h⟩
      exact ⟨i, Finset.mem_range.mpr hi, h⟩)

instance (t : List (HTentry K V)) (k : K) : Decidable (hasKey t k) :=
  decidable_of_iff (∃ i ∈ Finset.range t.length,
      (t.getD i emptyEntry).key = some k) (by
    constructor
    · rintro ⟨i, hi, h⟩
      exact ⟨i, Finset.mem_range.mp hi, h⟩
    · rintro ⟨i, hi, h⟩
      exact ⟨i, Finset.mem_range.mpr hi, h⟩)

instance (t : List (HTentry K V)) (k : K) [DecidableEq V] (v : Option V) :
    Decidable (hasPair t k v) :=
  decidable_of_iff (∃ i ∈ Finset.range t.length,
      (t.getD i emptyEntry).key = some k ∧ (t.getD i emptyEntry).value = v) (by
    constructor
    · rintro ⟨i, hi, h⟩
      exact ⟨i, Finset.mem_range.mp hi, h⟩
    · rintro ⟨i, hi, h⟩
      exact ⟨i, Finset.mem_range.mpr hi, h⟩)

instance (hash : K → Nat) (m : Nat) (t : List (HTentry K V)) :
    Decidable (TableOk hash m t) := by
  unfold TableOk
  exact inferInstance

instance (hash : K → Nat) (ht : HashTab K V) : Decidable (CoreInv hash ht) := by
  unfold CoreInv
  exact inferInstance

instance (hash : K → Nat) (ht : HashTab K V) : Decidable (Inv hash ht) := by
  unfold Inv
  exact inferInstance

/-! ### Membership forms of the pair predicates -/

theorem hasPair_iff_mem (t : List (HTentry K V)) (k : K) (v : Option V) :
    hasPair t k v ↔ ∃ e ∈ t, e.key = some k ∧ e.value = v := by
  constructor
  · rintro ⟨i, hi, hk1, hv1⟩
    refine ⟨t.getD i emptyEntry, ?_, hk1, hv1⟩
    rw [getD_eq_get _ _ _ hi]
    exact List.get_mem t i hi
  · rintro ⟨e, he, hk1, hv1⟩
    obtain ⟨i, hi, hget⟩ := List.mem_iff_getElem.mp he
    refine ⟨i, hi, ?_, ?_⟩
    · rw [getD_eq_get _ _ _ hi, List.get_eq_getElem, hget]
      exact hk1
    · rw [getD_eq_get _ _ _ hi, List.get_eq_getElem, hget]
      exact hv1

theorem hasKey_iff_mem (t : List (HTentry K V)) (k : K) :
    hasKey t k ↔ ∃ e ∈ t, e.key = some k := by
  constructor
  · rintro ⟨i, hi, hk1⟩
    refine ⟨t.getD i emptyEntry, ?_, hk1⟩
    rw [getD_eq_get _ _ _ hi]
    exact List.get_mem t i hi
  · rintro ⟨e, he, hk1⟩
    obtain ⟨i, hi, hget⟩ := List.mem_iff_getElem.mp he
    refine ⟨i, hi, ?_⟩
    rw [getD_eq_get _ _ _ hi, List.get_eq_getElem, hget]
    exact hk1

theorem hasKey_iff_pair (t : List (HTentry K V)) (k : K) :
    hasKey t k ↔ ∃ v, hasPair t k v := by
  constructor
  · rintro ⟨i, hi, hk1⟩
    exact ⟨(t.getD i emptyEntry).value, i, hi, hk1, rfl⟩
  · rintro ⟨v, i, hi, hk1, -⟩
    exact ⟨i, hi, hk1⟩

theorem keyCount_eq_zero (t : List (HTentry K V)) (k : K) :
    keyCount t k = 0 ↔ ¬ hasKey t k := by
  unfold keyCount
  rw [List.countP_eq_zero, hasKey_iff_mem]
  constructor
  · rintro h ⟨e, he, hk1⟩
    have h2 := h e he
    simp [hk1] at h2
  · intro h e he
    simp only [beq_iff_eq]
    intro hk1
    exact h ⟨e, he, hk1⟩

/-! ### Two distinct witnesses force a count of at least two -/

theorem countP_two_of_ne {α : Type} (p : α → Bool) (d : α) :
    ∀ (l : List α) (i j : Nat), i < l.length → j < l.length → i ≠ j →
    p (l.getD i d) = true → p (l.getD j d) = true → 2 ≤ l.countP p := by
  intro l
  induction l with
  | nil =>
    intro i j hi
    simp at hi
  | cons x xs ih =>
    intro i j hi hj hij hpi hpj
    rw [List.countP_cons]
    rcases i with - | n <;> rcases j with - | n2
    · exact absurd rfl hij
    · rw [List.getD_cons_zero] at hpi
      rw [List.getD_cons_succ] at hpj
      have hn2 : n2 < xs.length := by simpa using hj
      have h1 : 0 < xs.countP p := by
        apply List.countP_pos_iff.mpr
        refine ⟨xs.getD n2 d, ?_, hpj⟩
        rw [getD_eq_get _ _ _ hn2]
        exact List.get_mem xs n2 hn2
      rw [hpi, if_pos rfl]
      omega
    · rw [List.getD_cons_zero] at hpj
      rw [List.getD_cons_succ] at hpi
      have hn : n < xs.length := by simpa using hi
      have h1 : 0 < xs.countP p := by
        apply List.countP_pos_iff.mpr
        refine ⟨xs.getD n d, ?_, hpi⟩
        rw [getD_eq_get _ _ _ hn]
        exact List.get_mem xs n hn
      rw [hpj, if_pos rfl]
      omega
    · rw [List.getD_cons_succ] at hpi hpj
      have h1 := ih n n2 (by simpa using hi) (by simpa using hj)
        (by omega) hpi hpj
      omega

theorem keyCount_unique {t : List (HTentry K V)} {k : K}
    (h1 : keyCount t k = 1) {i : Nat} (hi : i < t.length)
    (hk1 : (t.getD i emptyEntry).key = some k) {i2 : Nat}
    (hi2 : i2 < t.length) (hne : i2 ≠ i) :
    (t.getD i2 emptyEntry).key ≠ some k := by
  intro hk2
  have h2 := countP_two_of_ne (fun e => e.key == some k) emptyEntry t i2 i
    hi2 hi hne (by simp only [beq_iff_eq]; exact hk2)
    (by simp only [beq_iff_eq]; exact hk1)
  unfold keyCount at h1
  omega

/-! ### The zeroed store produced by `calloc` -/

theorem getD_replicate (n i : Nat) :
    (List.replicate n (emptyEntry : HTentry K V)).getD i emptyEntry
      = emptyEntry := by
  by_cases h : i < n
  · rw [getD_eq_get _ _ _ (by simpa using h)]
    simp [List.get_eq_getElem, List.getElem_replicate]
  · exact getD_of_ge _ _ _ (by simpa using le_of_not_lt h)

theorem countOcc_replicate (n : Nat) :
    countOcc (List.replicate n (emptyEntry : HTentry K V)) = 0 := by
  unfold countOcc
  rw [List.countP_eq_zero]
  intro a ha
  rw [List.eq_of_mem_replicate ha]
  simp [emptyEntry]

theorem keyCount_replicate (n : Nat) (k : K) :
    keyCount (List.replicate n (emptyEntry : HTentry K V)) k = 0 := by
  unfold keyCount
  rw [List.countP_eq_zero]
  intro a ha
  rw [List.eq_of_mem_replicate ha]
  simp [emptyEntry]

/-! ### Accessors for the Bool-valued checkers -/

theorem entryOk_elim {hash : K → Nat} {m i : Nat} {e : HTentry K V}
    (h : entryOk hash m i e = true) {k : K} (hk : e.key = some k) :
    e.hash_key = hash32 hash k ∧ e.psl < m ∧ (e.hash_key + e.psl) % m = i := by
  unfold entryOk at h
  rw [hk] at h
  simp only [Bool.and_eq_true, beq_iff_eq, decide_eq_true_eq] at h
  exact ⟨h.1.1, h.1.2, h.2⟩

theorem entryOk_of_empty {hash : K → Nat} {m i : Nat} {e : HTentry K V}
    (hk : e.key = none) : entryOk hash m i e = true := by
  unfold entryOk
  rw [hk]

theorem entryOk_intro {hash : K → Nat} {m i : Nat} {e : HTentry K V}
    (h : ∀ k, e.key = some k →
      e.hash_key = hash32 hash k ∧ e.psl < m ∧ (e.hash_key + e.psl) % m = i) :
    entryOk hash m i e = true := by
  unfold entryOk
  cases hk : e.key with
  | none => rfl
  | some k =>
    obtain ⟨h1, h2, h3⟩ := h k hk
    simp only [Bool.and_eq_true, beq_iff_eq, decide_eq_true_eq]
    exact ⟨⟨h1, h2⟩, h3⟩

theorem runOk_elim {m : Nat} {t : List (HTentry K V)} {i : Nat}
    (h : runOk m t i = true)
    (hocc : (t.getD i emptyEntry).key ≠ none)
    (hpsl : 0 < (t.getD i emptyEntry).psl) :
    (t.getD (prevIdx m i) emptyEntry).key ≠ none ∧
    (t.getD i emptyEntry).psl ≤ (t.getD (prevIdx m i) emptyEntry).psl + 1 := by
  unfold runOk at h
  cases hk : (t.getD i emptyEntry).key with
  | none => exact absurd hk hocc
  | some k =>
    rw [hk] at h
    rw [if_neg (by omega)] at h
    simp only [Bool.and_eq_true, Option.isSome_iff_ne_none, decide_eq_true_eq] at h
    exact h

theorem runOk_intro {m : Nat} {t : List (HTentry K V)} {i : Nat}
    (h : (t.getD i emptyEntry).key ≠ none → 0 < (t.getD i emptyEntry).psl →
      (t.getD (prevIdx m i) emptyEntry).key ≠ none ∧
      (t.getD i emptyEntry).psl ≤ (t.getD (prevIdx m i) emptyEntry).psl + 1) :
    runOk m t i = true := by
  unfold runOk
  cases hk : (t.getD i emptyEntry).key with
  | none => rfl
  | some k =>
    rcases Nat.eq_zero_or_pos (t.getD i emptyEntry).psl with h0 | h0
    · rw [if_pos h0]
    · rw [if_neg (by omega)]
      obtain ⟨h1, h2⟩ := h (by rw [hk]; exact Option.some_ne_none k) h0
      simp only [Bool.and_eq_true, Option.isSome_iff_ne_none, decide_eq_true_eq]
      exact ⟨h1, h2⟩

/-! ### Occupancy counting -/

theorem countOcc_le_length (t : List (HTentry K V)) : countOcc t ≤ t.length :=
  List.countP_le_length _

theorem countOcc_set (t : List (HTentry K V)) (i : Nat) (e : HTentry K V)
    (h : i < t.length) :
    countOcc (t.set i e) + (if (t.getD i emptyEntry).key.isSome then 1 else 0) =
      countOcc t + (if e.key.isSome then 1 else 0) := by
  have h1 := countP_set (fun x => x.key.isSome) t i e h
  rwa [getD_eq_get t i e h, ← getD_eq_get t i emptyEntry h] at h1

theorem exists_empty_of_countOcc_lt (t : List (HTentry K V))
    (h : countOcc t < t.length) :
    ∃ i, i < t.length ∧ (t.getD i emptyEntry).key = none := by
  by_contra hc
  push_neg at hc
  have hall : ∀ e ∈ t, (fun x : HTentry K V => x.key.isSome) e = true := by
    intro e he
    obtain ⟨i, hi, hget⟩ := List.mem_iff_getElem.mp he
    have := hc i hi
    rw [getD_eq_get t i emptyEntry hi] at this
    simp only [List.get_eq_getElem, hget] at this
    simpa [Option.isSome_iff_ne_none] using this
  have := List.countP_eq_length.mpr hall
  unfold countOcc at h
  omega

/-! ### Unfolding lemmas for the fueled loops -/

theorem ht_searchFrom_succ (ht : HashTab K V) (hk : Nat) (k : K) (i n : Nat) :
    ht_searchFrom ht hk k i (n + 1) =
      (if (ht.table.getD (probe_func hk i ht.size) emptyEntry).key = none then
        none
      else if (ht.table.getD (probe_func hk i ht.size) emptyEntry).hash_key = hk ∧
          (ht.table.getD (probe_func hk i ht.size) emptyEntry).key = some k then
        (ht.table.getD (probe_func hk i ht.size) emptyEntry).value
      else if (ht.table.getD (probe_func hk i ht.size) emptyEntry).psl < i then
        none
      else ht_searchFrom ht hk k (i + 1) n) := rfl

theorem insertFrom_zero (m hk i : Nat) (c : HTentry K V)
    (t : List (HTentry K V)) : insertFrom m hk i 0 c t = (HT_FAILURE, t) := rfl

theorem insertFrom_succ (m hk i n : Nat) (c : HTentry K V)
    (t : List (HTentry K V)) :
    insertFrom m hk i (n + 1) c t =
      (if (t.getD (probe_func hk i m) emptyEntry).key = none then
        (HT_SUCCESS, t.set (probe_func hk i m) c)
      else if c.psl > (t.getD (probe_func hk i m) emptyEntry).psl then
        insertFrom m hk (i + 1) n
          (incPsl (t.getD (probe_func hk i m) emptyEntry))
          (t.set (probe_func hk i m) c)
      else insertFrom m hk (i + 1) n (incPsl c) t) := rfl

theorem shiftFrom_zero (m hk cur pc : Nat) (t : List (HTentry K V)) :
    shiftFrom m hk 0 cur pc t =
      t.set cur (clearKey (t.getD cur emptyEntry)) := rfl

theorem shiftFrom_succ (m hk n cur pc : Nat) (t : List (HTentry K V)) :
    shiftFrom m hk (n + 1) cur pc t =
      (if (t.getD (probe_func hk pc m) emptyEntry).key ≠ none ∧
          (t.getD (probe_func hk pc m) emptyEntry).psl > 0 then
        shiftFrom m hk n (probe_func hk pc m) (pc + 1)
          (t.set cur (decPsl (t.getD (probe_func hk pc m) emptyEntry)))
      else t.set cur (clearKey (t.getD cur emptyEntry))) := rfl

theorem removeFrom_succ (hk : Nat) (k : K) (ht : HashTab K V) (pc n : Nat) :
    removeFrom hk k ht pc (n + 1) =
      (if (ht.table.getD (probe_func hk pc ht.size) emptyEntry).key = none then
        (HT_KEY_NOT_FOUND, ht)
      else if (ht.table.getD (probe_func hk pc ht.size) emptyEntry).hash_key
            = hk ∧
          (ht.table.getD (probe_func hk pc ht.size) emptyEntry).key
            = some k then
        (HT_SUCCESS, remove_table_update { ht with
          table := shiftFrom ht.size hk (ht.size + 1)
            (probe_func hk pc ht.size) (pc + 1)
            (ht.table.set (probe_func hk pc ht.size)
              (clearEntry (ht.table.getD (probe_func hk pc ht.size)
                emptyEntry))) })
      else if (ht.table.getD (probe_func hk pc ht.size) emptyEntry).psl < pc
      then (HT_KEY_NOT_FOUND, ht)
      else removeFrom hk k ht (pc + 1) n) := rfl

/-! ### Misses on absent keys

A key held by no slot can neither be found by `ht_search` nor matched by
`ht_remove` (which therefore leaves the table untouched): the match
condition requires literal key equality under the consistent comparison
strategy. -/

theorem ht_searchFrom_absent {ht : HashTab K V} {k : K}
    (h : ¬ hasKey ht.table k) (hk : Nat) (i fuel : Nat) :
    ht_searchFrom ht hk k i fuel = none := by
  induction fuel generalizing i with
  | zero => rfl
  | succ n ih =>
    rw [ht_searchFrom_succ]
    by_cases hkey : (ht.table.getD (probe_func hk i ht.size) emptyEntry).key
        = none
    · rw [if_pos hkey]
    · rw [if_neg hkey]
      have hne : (ht.table.getD (probe_func hk i ht.size) emptyEntry).key
          ≠ some k := by
        intro he
        by_cases hin : probe_func hk i ht.size < ht.table.length
        · exact h ⟨_, hin, he⟩
        · rw [getD_of_ge _ _ _ (le_of_not_lt hin)] at he
          simp [emptyEntry] at he
      rw [if_neg (fun hc => hne hc.2)]
      split
      · rfl
      · exact ih (i + 1)

theorem ht_search_absent (hash : K → Nat) {ht : HashTab K V} {k : K}
    (h : ¬ hasKey ht.table k) (len : Nat) :
    ht_search hash ht k len = none := by
  unfold ht_search
  split
  · rfl
  · exact ht_searchFrom_absent h _ 0 _

theorem removeFrom_absent {ht : HashTab K V} {k : K}
    (h : ¬ hasKey ht.table k) (hk : Nat) (pc fuel : Nat) :
    removeFrom hk k ht pc fuel = (HT_KEY_NOT_FOUND, ht) := by
  induction fuel generalizing pc with
  | zero => rfl
  | succ n ih =>
    rw [removeFrom_succ]
    by_cases hkey : (ht.table.getD (probe_func hk pc ht.size) emptyEntry).key
        = none
    · rw [if_pos hkey]
    · rw [if_neg hkey]
      have hne : (ht.table.getD (probe_func hk pc ht.size) emptyEntry).key
          ≠ some k := by
        intro he
        by_cases hin : probe_func hk pc ht.size < ht.table.length
        · exact h ⟨_, hin, he⟩
        · rw [getD_of_ge _ _ _ (le_of_not_lt hin)] at he
          simp [emptyEntry] at he
      rw [if_neg (fun hc => hne hc.2)]
      split
      · rfl
      · exact ih (pc + 1)

theorem ht_remove_absent (hash : K → Nat) {ht : HashTab K V} {k : K}
    (h : ¬ hasKey ht.table k) {len : Nat} (hlen : len ≠ 0) :
    ht_remove hash ht k len = (HT_KEY_NOT_FOUND, ht) := by
  unfold ht_remove remove_entry
  rw [if_neg hlen]
  exact removeFrom_absent h _ 0 _

/-! ### Pair containment through the loops -/

theorem hasPair_set {t : List (HTentry K V)} {i : Nat} {e : HTentry K V}
    {k : K} {v : Option V} (h : hasPair (t.set i e) k v) :
    hasPair t k v ∨ (e.key = some k ∧ e.value = v) := by
  obtain ⟨j, hj, hkey, hval⟩ := h
  rw [List.length_set] at hj
  by_cases hij : i = j
  · subst hij
    rw [getD_set_self _ _ _ _ hj] at hkey hval
    exact Or.inr ⟨hkey, hval⟩
  · rw [getD_set_ne _ _ _ _ _ hij] at hkey hval
    exact Or.inl ⟨j, hj, hkey, hval⟩

theorem hasPair_of_getD {t : List (HTentry K V)} {i : Nat} {k : K}
    {v : Option V} (hkey : (t.getD i emptyEntry).key = some k)
    (hval : (t.getD i emptyEntry).value = v) : hasPair t k v := by
  by_cases hin : i < t.length
  · exact ⟨i, hin, hkey, hval⟩
  · rw [getD_of_ge _ _ _ (le_of_not_lt hin)] at hkey
    simp [emptyEntry] at hkey

theorem shiftFrom_hasPair {m hk : Nat} {k : K} {v : Option V} :
    ∀ (fuel cur pc : Nat) (t : List (HTentry K V)),
    hasPair (shiftFrom m hk fuel cur pc t) k v → hasPair t k v := by
  intro fuel
  induction fuel with
  | zero =>
    intro cur pc t hp
    rw [shiftFrom_zero] at hp
    rcases hasPair_set hp with h | ⟨hk1, _⟩
    · exact h
    · simp at hk1
  | succ n ih =>
    intro cur pc t hp
    rw [shiftFrom_succ] at hp
    split at hp
    · rcases hasPair_set (ih _ _ _ hp) with h | ⟨hk1, hv1⟩
      · exact h
      · exact hasPair_of_getD hk1 hv1
    · rcases hasPair_set hp with h | ⟨hk1, _⟩
      · exact h
      · simp at hk1

theorem insertFrom_hasPair {m hk : Nat} {k : K} {v : Option V} :
    ∀ (fuel i : Nat) (c : HTentry K V) (t : List (HTentry K V)),
    hasPair (insertFrom m hk i fuel c t).2 k v →
      hasPair t k v ∨ (c.key = some k ∧ c.value = v) := by
  intro fuel
  induction fuel with
  | zero => intro i c t hp; exact Or.inl hp
  | succ n ih =>
    intro i c t hp
    rw [insertFrom_succ] at hp
    split at hp
    · rcases hasPair_set hp with h | h
      · exact Or.inl h
      · exact Or.inr h
    · split at hp
      · rcases ih _ _ _ hp with h | ⟨hk1, hv1⟩
        · rcases hasPair_set h with h2 | h2
          · exact Or.inl h2
          · exact Or.inr h2
        · exact Or.inl (hasPair_of_getD hk1 hv1)
      · rcases ih _ _ _ hp with h | ⟨hk1, hv1⟩
        · exact Or.inl h
        · exact Or.inr ⟨hk1, hv1⟩

/-! ### Counting through the loops -/

theorem shiftFrom_countOcc {m hk : Nat} :
    ∀ (fuel cur pc : Nat) (t : List (HTentry K V)), t.length = m → cur < m →
    countOcc (shiftFrom m hk fuel cur pc t) +
      (if (t.getD cur emptyEntry).key.isSome then 1 else 0) = countOcc t := by
  intro fuel
  induction fuel with
  | zero =>
    intro cur pc t hlen hcur
    rw [shiftFrom_zero]
    have h := countOcc_set t cur (clearKey (t.getD cur emptyEntry)) (by omega)
    simpa using h
  | succ n ih =>
    intro cur pc t hlen hcur
    rw [shiftFrom_succ]
    by_cases hc : (t.getD (probe_func hk pc m) emptyEntry).key ≠ none ∧
        (t.getD (probe_func hk pc m) emptyEntry).psl > 0
    · rw [if_pos hc]
      have hpm : probe_func hk pc m < m := probe_func_lt _ _ _ (by omega)
      have hset := countOcc_set t cur
        (decPsl (t.getD (probe_func hk pc m) emptyEntry)) (by omega)
      have hmov : (decPsl (t.getD (probe_func hk pc m)
          emptyEntry)).key.isSome = true := by
        simp only [decPsl_key, Option.isSome_iff_ne_none]
        exact hc.1
      have hih := ih (probe_func hk pc m) (pc + 1)
        (t.set cur (decPsl (t.getD (probe_func hk pc m) emptyEntry)))
        (by rw [List.length_set]; exact hlen) hpm
      have hkey1 : ((t.set cur (decPsl (t.getD (probe_func hk pc m)
          emptyEntry))).getD (probe_func hk pc m) emptyEntry).key.isSome
            = true := by
        by_cases hec : cur = probe_func hk pc m
        · rw [← hec] at hmov ⊢
          rw [getD_set_self _ _ _ _ (by omega)]
          exact hmov
        · rw [getD_set_ne _ _ _ _ _ hec]
          simp only [Option.isSome_iff_ne_none]
          exact hc.1
      simp only [hkey1, eq_self_iff_true, if_true] at hih
      simp only [hmov, eq_self_iff_true, if_true] at hset
      by_cases hco : (t.getD cur emptyEntry).key.isSome = true
      · simp only [hco, eq_self_iff_true, if_true] at hset ⊢
        omega
      · simp only [hco, if_false] at hset ⊢
        omega
    · rw [if_neg hc]
      have h := countOcc_set t cur (clearKey (t.getD cur emptyEntry))
        (by omega)
      simpa using h

theorem insertFrom_countOcc (m hk : Nat) (hm : 0 < m) :
    ∀ (fuel i : Nat) (c : HTentry K V) (t : List (HTentry K V)),
    t.length = m → c.key ≠ none →
    countOcc (insertFrom m hk i fuel c t).2 =
      countOcc t +
        (if (insertFrom m hk i fuel c t).1 = HT_SUCCESS then 1 else 0) := by
  intro fuel
  induction fuel with
  | zero =>
    intro i c t hlen hc
    rw [insertFrom_zero]
    simp
  | succ n ih =>
    intro i c t hlen hc
    rw [insertFrom_succ]
    have hpm : probe_func hk i m < m := probe_func_lt _ _ _ hm
    have hc2 : c.key.isSome = true := by
      simp only [Option.isSome_iff_ne_none]; exact hc
    by_cases h1 : (t.getD (probe_func hk i m) emptyEntry).key = none
    · rw [if_pos h1]
      have hset := countOcc_set t (probe_func hk i m) c (by omega)
      rw [h1, hc2] at hset
      simp only [Option.isSome_none, Bool.false_eq_true, if_false,
        eq_self_iff_true, if_true, Nat.add_zero] at hset
      simpa using hset
    · rw [if_neg h1]
      have ho : (t.getD (probe_func hk i m) emptyEntry).key.isSome = true := by
        simp only [Option.isSome_iff_ne_none]; exact h1
      by_cases h2 : c.psl > (t.getD (probe_func hk i m) emptyEntry).psl
      · rw [if_pos h2]
        have hset := countOcc_set t (probe_func hk i m) c (by omega)
        rw [hc2, ho] at hset
        simp only [eq_self_iff_true, if_true] at hset
        have hih := ih (i + 1)
          (incPsl (t.getD (probe_func hk i m) emptyEntry))
          (t.set (probe_func hk i m) c)
          (by rw [List.length_set]; exact hlen) (by simpa using h1)
        have ht1 : countOcc (t.set (probe_func hk i m) c) = countOcc t := by
          omega
        rw [hih, ht1]
      · rw [if_neg h2]
        exact ih (i + 1) (incPsl c) t hlen (by simpa using hc)

/-- The placement loop succeeds as soon as some probe step in its remaining
fuel reads an empty slot; swapping never empties or fills other slots. -/
theorem insertFrom_success_of_empty {m j hk : Nat} (hm : m = 2 ^ j)
    (hj : j ≤ 32) :
    ∀ (fuel i : Nat) (c : HTentry K V) (t : List (HTentry K V)),
    t.length = m → i + fuel ≤ m →
    (∃ s, s < fuel ∧ (t.getD (probe_func hk (i + s) m) emptyEntry).key = none) →
    (insertFrom m hk i fuel c t).1 = HT_SUCCESS := by
  intro fuel
  induction fuel with
  | zero => rintro i c t - - ⟨s, hs, -⟩; omega
  | succ n ih =>
    rintro i c t hlen hif ⟨s, hs, hempty⟩
    rw [insertFrom_succ]
    by_cases h1 : (t.getD (probe_func hk i m) emptyEntry).key = none
    · rw [if_pos h1]
    · rw [if_neg h1]
      have hs0 : s ≠ 0 := by
        intro h0
        rw [h0, Nat.add_zero] at hempty
        exact h1 hempty
      have hlt : i + s < m := by omega
      have hi : i < m := by omega
      have hwit : ∃ s2, s2 < n ∧
          (t.getD (probe_func hk (i + 1 + s2) m) emptyEntry).key = none := by
        refine ⟨s - 1, by omega, ?_⟩
        have h3 : i + 1 + (s - 1) = i + s := by omega
        rw [h3]
        exact hempty
      by_cases h2 : c.psl > (t.getD (probe_func hk i m) emptyEntry).psl
      · rw [if_pos h2]
        refine ih (i + 1) _ _ (by rw [List.length_set]; exact hlen)
          (by omega) ?_
        obtain ⟨s2, hs2, he2⟩ := hwit
        refine ⟨s2, hs2, ?_⟩
        have hne2 : probe_func hk (i + 1 + s2) m ≠ probe_func hk i m := by
          intro h
          have := probe_func_inj hm hj (by omega) hi h
          omega
        rw [getD_set_ne _ _ _ _ _ (fun h => hne2 h.symm)]
        exact he2
      · rw [if_neg h2]
        exact ih (i + 1) _ _ hlen (by omega) hwit

theorem insertFrom_success_pairs (m hk : Nat) (hm : 0 < m) :
    ∀ (fuel i : Nat) (c : HTentry K V) (t : List (HTentry K V)),
    t.length = m →
    (insertFrom m hk i fuel c t).1 = HT_SUCCESS →
    (∀ k v, hasPair t k v → hasPair (insertFrom m hk i fuel c t).2 k v) ∧
    (∀ kc, c.key = some kc → hasPair (insertFrom m hk i fuel c t).2 kc c.value)
    := by
  intro fuel
  induction fuel with
  | zero =>
    intro i c t _ hS
    rw [insertFrom_zero] at hS
    simp at hS
  | succ n ih =>
    intro i c t hlen hS
    rw [insertFrom_succ] at hS ⊢
    have hpm : probe_func hk i m < t.length := by
      rw [hlen]
      exact probe_func_lt _ _ _ hm
    by_cases h1 : (t.getD (probe_func hk i m) emptyEntry).key = none
    · rw [if_pos h1] at hS ⊢
      constructor
      · rintro k v ⟨jdx, hj, hkey, hval⟩
        by_cases hje : jdx = probe_func hk i m
        · rw [hje, h1] at hkey
          simp at hkey
        · exact ⟨jdx, by rw [List.length_set]; exact hj,
            by rw [getD_set_ne _ _ _ _ _ (fun h => hje h.symm)]; exact hkey,
            by rw [getD_set_ne _ _ _ _ _ (fun h => hje h.symm)]; exact hval⟩
      · intro kc hkc
        exact ⟨probe_func hk i m, by rw [List.length_set]; exact hpm,
          by rw [getD_set_self _ _ _ _ hpm]; exact hkc,
          by rw [getD_set_self _ _ _ _ hpm]⟩
    · rw [if_neg h1] at hS ⊢
      by_cases h2 : c.psl > (t.getD (probe_func hk i m) emptyEntry).psl
      · rw [if_pos h2] at hS ⊢
        have hih := ih (i + 1)
          (incPsl (t.getD (probe_func hk i m) emptyEntry))
          (t.set (probe_func hk i m) c)
          (by rw [List.length_set]; exact hlen) hS
        constructor
        · rintro k v ⟨jdx, hj, hkey, hval⟩
          by_cases hje : jdx = probe_func hk i m
          · subst hje
            have h3 : (incPsl (t.getD (probe_func hk i m) emptyEntry)).key
                = some k := by rw [incPsl_key]; exact hkey
            have h4 := hih.2 k h3
            rw [incPsl_value, hval] at h4
            exact h4
          · exact hih.1 k v ⟨jdx, by rw [List.length_set]; exact hj,
              by rw [getD_set_ne _ _ _ _ _ (fun h => hje h.symm)]; exact hkey,
              by rw [getD_set_ne _ _ _ _ _ (fun h => hje h.symm)]; exact hval⟩
        · intro kc hkc
          apply hih.1
          exact ⟨probe_func hk i m, by rw [List.length_set]; exact hpm,
            by rw [getD_set_self _ _ _ _ hpm]; exact hkc,
            by rw [getD_set_self _ _ _ _ hpm]⟩
      · rw [if_neg h2] at hS ⊢
        have hih := ih (i + 1) (incPsl c) t hlen hS
        refine ⟨hih.1, fun kc hkc => ?_⟩
        have h3 : (incPsl c).key = some kc := by rw [incPsl_key]; exact hkc
        have h4 := hih.2 kc h3
        rw [incPsl_value] at h4
        exact h4

/-! ### More index arithmetic -/

theorem add_one_mod {m : Nat} (hm : 1 < m) (x : Nat) :
    (x + 1) % m = (x % m + 1) % m := by
  conv_lhs => rw [Nat.add_mod]
  rw [Nat.mod_eq_of_lt hm]

theorem prevIdx_lt {m : Nat} (hm : 0 < m) (i : Nat) : prevIdx m i < m :=
  Nat.mod_lt _ hm

theorem prevIdx_ne {m : Nat} (hm2 : 2 ≤ m) {i : Nat} (hi : i < m) :
    prevIdx m i ≠ i := by
  unfold prevIdx
  intro h
  rcases Nat.eq_zero_or_pos i with rfl | hi1
  · rw [Nat.zero_add, Nat.mod_eq_of_lt (by omega)] at h
    omega
  · have h2 : i + m - 1 = m + (i - 1) := by omega
    rw [h2, Nat.add_mod_left, Nat.mod_eq_of_lt (by omega)] at h
    omega

theorem prevIdx_inj {m : Nat} (hm : 0 < m) {a b : Nat} (ha : a < m)
    (hb : b < m) (h : prevIdx m a = prevIdx m b) : a = b := by
  unfold prevIdx at h
  have h1 : a + m - 1 = a + (m - 1) := by omega
  have h2 : b + m - 1 = b + (m - 1) := by omega
  rw [h1, h2] at h
  have h3 : a ≡ b [MOD m] := Nat.ModEq.add_right_cancel' (m - 1) h
  have h4 : a % m = b % m := h3
  rwa [Nat.mod_eq_of_lt ha, Nat.mod_eq_of_lt hb] at h4

theorem probe_func_succ_mod {m j : Nat} (hm : m = 2 ^ j) (hj : j ≤ 32)
    (hm2 : 2 ≤ m) (k i : Nat) :
    probe_func k (i + 1) m = (probe_func k i m + 1) % m := by
  rw [probe_func_eq_mod hm hj, probe_func_eq_mod hm hj]
  exact add_one_mod (by omega) (k + i)

theorem prevIdx_succ_self {m : Nat} {i : Nat} (hi : i < m) :
    prevIdx m ((i + 1) % m) = i := by
  have h := prevIdx_of_mod (by omega : 0 < m) i
  rwa [Nat.mod_eq_of_lt hi] at h

/-! ### The Robin-Hood placement loop preserves the table invariant

Loop invariants: the carried entry is occupied with a correctly cached
hash; its hash plus psl is congruent to the current probe index; its psl is
at most the probe step; and, when displaced, the slot one step back is
occupied with psl at least `carried.psl - 1`. -/

theorem insertFrom_ok (hash : K → Nat) {m j : Nat}
    (hm : m = 2 ^ j) (hj1 : 1 ≤ j) (hj : j ≤ 32) (h : Nat) :
    ∀ (fuel i : Nat) (c : HTentry K V) (t : List (HTentry K V)),
    t.length = m →
    i + fuel = m →
    (∀ i2, i2 < m → entryOk hash m i2 (t.getD i2 emptyEntry) = true) →
    (∀ i2, i2 < m → runOk m t i2 = true) →
    (∃ kc, c.key = some kc ∧ c.hash_key = hash32 hash kc) →
    (c.hash_key + c.psl) % m = probe_func h i m →
    c.psl ≤ i →
    (0 < c.psl →
      (t.getD (prevIdx m (probe_func h i m)) emptyEntry).key ≠ none ∧
      c.psl ≤ (t.getD (prevIdx m (probe_func h i m)) emptyEntry).psl + 1) →
    (∀ i2, i2 < m →
      entryOk hash m i2 ((insertFrom m h i fuel c t).2.getD i2 emptyEntry)
        = true) ∧
    (∀ i2, i2 < m → runOk m (insertFrom m h i fuel c t).2 i2 = true) ∧
    ((insertFrom m h i fuel c t).1 = HT_SUCCESS →
      hasStopper m (insertFrom m h i fuel c t).2) := by
  have hm2 : 2 ≤ m := by
    subst hm
    calc 2 = 2 ^ 1 := rfl
    _ ≤ 2 ^ j := Nat.pow_le_pow_right (by omega) hj1
  intro fuel
  induction fuel with
  | zero =>
    intro i c t hlen hif hentry hrun _ _ _ _
    rw [insertFrom_zero]
    exact ⟨hentry, hrun, by intro hS; simp at hS⟩
  | succ n ih =>
    intro i c t hlen hif hentry hrun hckey hcpos hcpsl hcprev
    obtain ⟨kc, hkc, hkh⟩ := hckey
    have hi : i < m := by omega
    have hpm : probe_func h i m < m := probe_func_lt _ _ _ (by omega)
    rw [insertFrom_succ]
    -- facts for placing the carried entry at the current index
    have hplace : entryOk hash m (probe_func h i m) c = true := by
      apply entryOk_intro
      intro k2 hk2
      rw [hkc] at hk2
      cases hk2
      exact ⟨hkh, by omega, hcpos⟩
    by_cases h1 : (t.getD (probe_func h i m) emptyEntry).key = none
    · rw [if_pos h1]
      refine ⟨?_, ?_, ?_⟩
      · intro i2 hi2
        by_cases hei : i2 = probe_func h i m
        · subst hei
          rw [getD_set_self _ _ _ _ (by omega)]
          exact hplace
        · rw [getD_set_ne _ _ _ _ _ (fun he => hei he.symm)]
          exact hentry i2 hi2
      case _ =>
        intro i2 hi2
        apply runOk_intro
        intro hocc2 hpsl2
        by_cases hei : i2 = probe_func h i m
        · -- the placed slot: its predecessor comes from the carried entry's
          -- displaced-run hypothesis
          subst hei
          rw [getD_set_self _ _ _ _ (by omega)] at hocc2 hpsl2
          have hne := prevIdx_ne hm2 hpm
          rw [getD_set_ne _ _ _ _ _ (fun he => hne he.symm),
            getD_set_self _ _ _ _ (by omega)]
          exact hcprev hpsl2
        · rw [getD_set_ne _ _ _ _ _ (fun he => hei he.symm)] at hocc2 hpsl2
          have helim := runOk_elim (hrun i2 hi2) hocc2 hpsl2
          by_cases hpe : prevIdx m i2 = probe_func h i m
          · -- pre-state successor of the empty slot: contradiction with the
            -- pre-state run invariant
            rw [hpe] at helim
            exact absurd h1 helim.1
          · rw [getD_set_ne _ _ _ _ _ (fun he => hpe he.symm),
              getD_set_ne _ _ _ _ _ (fun he => hei he.symm)]
            exact helim
      case _ =>
        -- the successor of the placed slot is empty or at its natural
        -- position, by the pre-state run invariant
        intro _
        have hsl : (probe_func h i m + 1) % m < m := Nat.mod_lt _ (by omega)
        have hsne : (probe_func h i m + 1) % m ≠ probe_func h i m := by
          have h4 := succ_mod_ne hm2 (probe_func h i m)
          rwa [Nat.mod_eq_of_lt hpm] at h4
        refine ⟨(probe_func h i m + 1) % m, hsl, ?_⟩
        rw [getD_set_ne _ _ _ _ _ (fun he => hsne he.symm)]
        by_cases hc2 : (t.getD ((probe_func h i m + 1) % m) emptyEntry).key
            = none
        · exact Or.inl hc2
        · right
          by_cases hp2 : (t.getD ((probe_func h i m + 1) % m) emptyEntry).psl
              = 0
          · exact hp2
          · have helim := runOk_elim (hrun _ hsl) hc2 (by omega)
            rw [prevIdx_succ_self hpm] at helim
            exact absurd h1 helim.1
    · rw [if_neg h1]
      have he_ok := hentry (probe_func h i m) hpm
      have hcpos1 : (c.hash_key + c.psl + 1) % m = probe_func h (i + 1) m := by
        rw [probe_func_succ_mod hm hj hm2]
        rw [add_one_mod (by omega) (c.hash_key + c.psl), hcpos]
      by_cases h2 : c.psl > (t.getD (probe_func h i m) emptyEntry).psl
      · rw [if_pos h2]
        -- swap: the resident is carried on, the carried entry is placed
        obtain ⟨ke, hke⟩ := Option.ne_none_iff_exists'.mp h1
        obtain ⟨heh, hepsl, hepos⟩ := entryOk_elim he_ok hke
        apply ih (i + 1) (incPsl (t.getD (probe_func h i m) emptyEntry))
          (t.set (probe_func h i m) c)
          (by rw [List.length_set]; exact hlen) (by omega)
        · -- entryOk for the table with the carried entry placed
          intro i2 hi2
          by_cases hei : i2 = probe_func h i m
          · subst hei
            rw [getD_set_self _ _ _ _ (by omega)]
            exact hplace
          · rw [getD_set_ne _ _ _ _ _ (fun he => hei he.symm)]
            exact hentry i2 hi2
        · -- runOk for the table with the carried entry placed
          intro i2 hi2
          apply runOk_intro
          intro hocc2 hpsl2
          by_cases hei : i2 = probe_func h i m
          · subst hei
            rw [getD_set_self _ _ _ _ (by omega)] at hocc2 hpsl2
            have hne := prevIdx_ne hm2 hpm
            rw [getD_set_ne _ _ _ _ _ (fun he => hne he.symm),
              getD_set_self _ _ _ _ (by omega)]
            exact hcprev hpsl2
          · rw [getD_set_ne _ _ _ _ _ (fun he => hei he.symm)] at hocc2 hpsl2
            have helim := runOk_elim (hrun i2 hi2) hocc2 hpsl2
            by_cases hpe : prevIdx m i2 = probe_func h i m
            · -- successor of the swapped slot: the new resident is richer
              rw [hpe] at helim
              rw [hpe, getD_set_self _ _ _ _ (by omega),
                getD_set_ne _ _ _ _ _ (fun he => hei he.symm)]
              refine ⟨by rw [hkc]; exact Option.some_ne_none kc, ?_⟩
              omega
            · rw [getD_set_ne _ _ _ _ _ (fun he => hpe he.symm),
                getD_set_ne _ _ _ _ _ (fun he => hei he.symm)]
              exact helim
        · exact ⟨ke, by rw [incPsl_key]; exact hke,
            by rw [incPsl_hash_key]; exact heh⟩
        · rw [incPsl_hash_key, incPsl_psl, probe_func_succ_mod hm hj hm2,
            ← Nat.add_assoc, add_one_mod (by omega) _, hepos]
        · rw [incPsl_psl]; omega
        · intro _
          have hne := prevIdx_ne hm2 (probe_func_lt h (i + 1) m (by omega))
          rw [prevIdx_probe_succ hm hj, getD_set_self _ _ _ _ (by omega)]
          rw [incPsl_psl]
          constructor
          · rw [hkc]; exact Option.some_ne_none kc
          · omega
      · rw [if_neg h2]
        -- no swap: the carried entry moves on with psl incremented
        apply ih (i + 1) (incPsl c) t hlen (by omega) hentry hrun
        · exact ⟨kc, by rw [incPsl_key]; exact hkc,
            by rw [incPsl_hash_key]; exact hkh⟩
        · rw [incPsl_hash_key, incPsl_psl, ← Nat.add_assoc]
          exact hcpos1
        · rw [incPsl_psl]; omega
        · intro _
          rw [prevIdx_probe_succ hm hj, incPsl_psl]
          exact ⟨h1, by omega⟩

/-! ### Lifting to `insert_entry` -/

theorem insertFrom_length {m hk : Nat} :
    ∀ (fuel i : Nat) (c : HTentry K V) (t : List (HTentry K V)),
    (insertFrom m hk i fuel c t).2.length = t.length := by
  intro fuel
  induction fuel with
  | zero => intro i c t; rw [insertFrom_zero]
  | succ n ih =>
    intro i c t
    rw [insertFrom_succ]
    by_cases h1 : (t.getD (probe_func hk i m) emptyEntry).key = none
    · rw [if_pos h1]
      exact List.length_set t _ _
    · rw [if_neg h1]
      by_cases h2 : c.psl > (t.getD (probe_func hk i m) emptyEntry).psl
      · rw [if_pos h2, ih]
        exact List.length_set t _ _
      · rw [if_neg h2, ih]

theorem insertFrom_keyCount (m hk : Nat) (hm : 0 < m) (k : K) :
    ∀ (fuel i : Nat) (c : HTentry K V) (t : List (HTentry K V)),
    t.length = m →
    (insertFrom m hk i fuel c t).1 = HT_SUCCESS →
    keyCount (insertFrom m hk i fuel c t).2 k =
      keyCount t k + (if c.key = some k then 1 else 0) := by
  intro fuel
  induction fuel with
  | zero =>
    intro i c t _ hS
    rw [insertFrom_zero] at hS
    simp at hS
  | succ n ih =>
    intro i c t hlen hS
    rw [insertFrom_succ] at hS ⊢
    have hpm : probe_func hk i m < t.length := by
      rw [hlen]; exact probe_func_lt _ _ _ hm
    by_cases h1 : (t.getD (probe_func hk i m) emptyEntry).key = none
    · rw [if_pos h1] at hS ⊢
      have hset := countP_set (fun e => e.key == some k) t (probe_func hk i m)
        c hpm
      have h3 : t.getD (probe_func hk i m) c = t.getD (probe_func hk i m)
          emptyEntry := by
        rw [getD_eq_get _ _ _ hpm, getD_eq_get _ _ _ hpm]
      simp only [beq_iff_eq] at hset
      rw [h3, h1] at hset
      rw [if_neg (by simp)] at hset
      unfold keyCount
      dsimp only
      by_cases hck : c.key = some k
      · rw [if_pos hck] at hset ⊢
        omega
      · rw [if_neg hck] at hset ⊢
        omega
    · rw [if_neg h1] at hS ⊢
      by_cases h2 : c.psl > (t.getD (probe_func hk i m) emptyEntry).psl
      · rw [if_pos h2] at hS ⊢
        have hih := ih (i + 1)
          (incPsl (t.getD (probe_func hk i m) emptyEntry))
          (t.set (probe_func hk i m) c)
          (by rw [List.length_set]; exact hlen) hS
        have hset := countP_set (fun e => e.key == some k) t (probe_func hk i m)
          c hpm
        have h3 : t.getD (probe_func hk i m) c = t.getD (probe_func hk i m)
            emptyEntry := by
          rw [getD_eq_get _ _ _ hpm, getD_eq_get _ _ _ hpm]
        simp only [beq_iff_eq] at hset
        rw [h3] at hset
        unfold keyCount at hih ⊢
        simp only [incPsl_key] at hih
        by_cases hek : (t.getD (probe_func hk i m) emptyEntry).key = some k
        · rw [if_pos hek] at hih hset
          by_cases hck : c.key = some k
          · rw [if_pos hck] at hset ⊢
            omega
          · rw [if_neg hck] at hset ⊢
            omega
        · rw [if_neg hek] at hih hset
          by_cases hck : c.key = some k
          · rw [if_pos hck] at hset ⊢
            omega
          · rw [if_neg hck] at hset ⊢
            omega
      · rw [if_neg h2] at hS ⊢
        have hih := ih (i + 1) (incPsl c) t hlen hS
        rw [hih]
        simp only [incPsl_key]

theorem insert_entry_fst (ht : HashTab K V) (hk : Nat) (key : K)
    (v : Option V) :
    (insert_entry ht hk key v).1 =
      (insertFrom ht.size hk 0 ht.size
        { hash_key := hk, psl := 0, key := some key, value := v }
        ht.table).1 := by
  unfold insert_entry
  split
  next hS => exact hS.symm
  next => rfl

theorem insert_entry_table (ht : HashTab K V) (hk : Nat) (key : K)
    (v : Option V) :
    (insert_entry ht hk key v).2.table =
      (insertFrom ht.size hk 0 ht.size
        { hash_key := hk, psl := 0, key := some key, value := v }
        ht.table).2 := by
  unfold insert_entry
  split <;> rfl

theorem insert_entry_size (ht : HashTab K V) (hk : Nat) (key : K)
    (v : Option V) : (insert_entry ht hk key v).2.size = ht.size := by
  unfold insert_entry
  split <;> rfl

theorem insert_entry_lf (ht : HashTab K V) (hk : Nat) (key : K)
    (v : Option V) :
    (insert_entry ht hk key v).2.load_factor = ht.load_factor := by
  unfold insert_entry
  split <;> rfl

theorem insert_entry_mlf (ht : HashTab K V) (hk : Nat) (key : K)
    (v : Option V) :
    (insert_entry ht hk key v).2.min_load_factor = ht.min_load_factor := by
  unfold insert_entry
  split <;> rfl

theorem insert_entry_active (ht : HashTab K V) (hk : Nat) (key : K)
    (v : Option V) :
    (insert_entry ht hk key v).2.active = ht.active +
      (if (insert_entry ht hk key v).1 = HT_SUCCESS then 1 else 0) := by
  unfold insert_entry
  split
  next hS => simp
  next hS => simp [hS]

/-- Composite preservation: inserting a consistently hashed key into a
table with a free slot succeeds, preserves the table invariant and the
stored pairs, adds the new pair, and increments the occupancy. -/
theorem insert_entry_preserves (hash : K → Nat) {j : Nat} (ht : HashTab K V)
    (key : K) (value : Option V)
    (hm : ht.size = 2 ^ j) (hj1 : 1 ≤ j) (hj : j ≤ 32)
    (hlen : ht.table.length = ht.size)
    (hentry : ∀ i2, i2 < ht.size →
      entryOk hash ht.size i2 (ht.table.getD i2 emptyEntry) = true)
    (hrun : ∀ i2, i2 < ht.size → runOk ht.size ht.table i2 = true)
    (hroom : countOcc ht.table < ht.size) :
    (insert_entry ht (hash32 hash key) key value).1 = HT_SUCCESS ∧
    (insert_entry ht (hash32 hash key) key value).2.table.length = ht.size ∧
    (∀ i2, i2 < ht.size → entryOk hash ht.size i2
      ((insert_entry ht (hash32 hash key) key value).2.table.getD i2
        emptyEntry) = true) ∧
    (∀ i2, i2 < ht.size →
      runOk ht.size (insert_entry ht (hash32 hash key) key value).2.table i2
        = true) ∧
    hasStopper ht.size (insert_entry ht (hash32 hash key) key value).2.table ∧
    countOcc (insert_entry ht (hash32 hash key) key value).2.table =
      countOcc ht.table + 1 ∧
    (∀ k v2, hasPair ht.table k v2 →
      hasPair (insert_entry ht (hash32 hash key) key value).2.table k v2) ∧
    hasPair (insert_entry ht (hash32 hash key) key value).2.table key value ∧
    (∀ k v2, hasPair (insert_entry ht (hash32 hash key) key value).2.table k v2
      → hasPair ht.table k v2 ∨ (k = key ∧ v2 = value)) ∧
    (∀ k, keyCount (insert_entry ht (hash32 hash key) key value).2.table k =
      keyCount ht.table k + (if key = k then 1 else 0)) := by
  have hm2 : 2 ≤ ht.size := by
    rw [hm]
    calc 2 = 2 ^ 1 := rfl
    _ ≤ 2 ^ j := Nat.pow_le_pow_right (by omega) hj1
  obtain ⟨eidx, heidx, hempty⟩ := exists_empty_of_countOcc_lt ht.table
    (by omega)
  obtain ⟨d, hd, hprobe⟩ := probe_func_surj hm hj (hash32 hash key) 0
    (show eidx < ht.size by omega)
  have hS : (insertFrom ht.size (hash32 hash key) 0 ht.size
      { hash_key := hash32 hash key, psl := 0, key := some key, value := value }
      ht.table).1 = HT_SUCCESS := by
    apply insertFrom_success_of_empty hm hj
    · exact hlen
    · omega
    · exact ⟨d, by omega, by rw [hprobe]; exact hempty⟩
  have hok := insertFrom_ok hash hm hj1 hj (hash32 hash key) ht.size 0
    { hash_key := hash32 hash key, psl := 0, key := some key, value := value }
    ht.table hlen (by omega) hentry hrun
    ⟨key, rfl, rfl⟩
    (by rw [probe_func_eq_mod hm hj])
    (Nat.le_refl 0)
    (by intro hc; simp at hc)
  have hpairs := insertFrom_success_pairs ht.size (hash32 hash key) (by omega) ht.size 0
    { hash_key := hash32 hash key, psl := 0, key := some key, value := value }
    ht.table hlen hS
  have hcount := insertFrom_countOcc ht.size (hash32 hash key) (by omega) ht.size 0
    { hash_key := hash32 hash key, psl := 0, key := some key, value := value }
    ht.table hlen (by simp) 
  have hkc := fun k => insertFrom_keyCount ht.size (hash32 hash key) (by omega) k ht.size 0
    { hash_key := hash32 hash key, psl := 0, key := some key, value := value }
    ht.table hlen hS
  rw [insert_entry_fst, insert_entry_table]
  refine ⟨hS, ?_, hok.1, hok.2.1, hok.2.2 hS, ?_, ?_, ?_, ?_, ?_⟩
  · rw [insertFrom_length, hlen]
  · rw [hcount, hS]
    simp
  · exact hpairs.1
  · exact hpairs.2 key rfl
  · intro k v2 hp
    rcases insertFrom_hasPair _ _ _ _ hp with h | ⟨h1, h2⟩
    · exact Or.inl h
    · have h1b : some key = some k := h1
      have h2b : value = v2 := h2
      cases Option.some.inj h1b
      exact Or.inr ⟨rfl, h2b.symm⟩
  · intro k
    rw [hkc k]
    by_cases hkk : key = k
    · subst hkk
      rw [if_pos rfl, if_pos rfl]
    · rw [if_neg (fun hc => hkk (Option.some.inj hc)), if_neg hkk]

/-! ### Weak pair containment through rehashing

These lemmas use no invariant: every pair of a rehashed table was already a
pair of the accumulator or comes from the re-inserted list, so a key absent
from a table stays absent through any `resize`, successful or not. -/

theorem rehash_entries_nil (acc : HashTab K V) :
    rehash_entries acc [] = acc := rfl

theorem rehash_entries_cons (acc : HashTab K V) (e : HTentry K V)
    (l : List (HTentry K V)) :
    rehash_entries acc (e :: l) =
      rehash_entries (e.key.elim acc
        (fun k => (insert_entry acc e.hash_key k e.value).2)) l := rfl

theorem insert_entry_pairs_weak {ht : HashTab K V} {hk : Nat} {key : K}
    {v : Option V} {k2 : K} {v2 : Option V}
    (h : hasPair (insert_entry ht hk key v).2.table k2 v2) :
    hasPair ht.table k2 v2 ∨ (k2 = key ∧ v2 = v) := by
  rw [insert_entry_table] at h
  rcases insertFrom_hasPair _ _ _ _ h with h2 | ⟨h2, h3⟩
  · exact Or.inl h2
  · exact Or.inr ⟨(Option.some.inj h2).symm, h3.symm⟩

theorem rehash_entries_pairs_weak {k : K} {v : Option V} :
    ∀ (l : List (HTentry K V)) (acc : HashTab K V),
    hasPair (rehash_entries acc l).table k v →
    hasPair acc.table k v ∨ ∃ e ∈ l, e.key = some k ∧ e.value = v := by
  intro l
  induction l with
  | nil =>
    intro acc h
    exact Or.inl h
  | cons e l2 ih =>
    intro acc h
    rw [rehash_entries_cons] at h
    cases hke : e.key with
    | none =>
      rw [hke] at h
      simp only [Option.elim_none] at h
      rcases ih _ h with h2 | ⟨e2, he2, h3⟩
      · exact Or.inl h2
      · exact Or.inr ⟨e2, List.mem_cons_of_mem _ he2, h3⟩
    | some ke =>
      rw [hke] at h
      simp only [Option.elim_some] at h
      rcases ih _ h with h2 | ⟨e2, he2, h3⟩
      · rcases insert_entry_pairs_weak h2 with h3 | ⟨h3, h4⟩
        · exact Or.inl h3
        · refine Or.inr ⟨e, List.mem_cons_self _ _, ?_, h4.symm⟩
          rw [hke, h3]
      · exact Or.inr ⟨e2, List.mem_cons_of_mem _ he2, h3⟩

theorem rehash_entries_frame :
    ∀ (l : List (HTentry K V)) (acc : HashTab K V),
    (rehash_entries acc l).size = acc.size ∧
    (rehash_entries acc l).load_factor = acc.load_factor ∧
    (rehash_entries acc l).min_load_factor = acc.min_load_factor := by
  intro l
  induction l with
  | nil =>
    intro acc
    exact ⟨rfl, rfl, rfl⟩
  | cons e l2 ih =>
    intro acc
    rw [rehash_entries_cons]
    cases hke : e.key with
    | none =>
      simp only [Option.elim_none]
      exact ih acc
    | some ke =>
      simp only [Option.elim_some]
      obtain ⟨h1, h2, h3⟩ := ih ((insert_entry acc e.hash_key ke e.value).2)
      rw [h1, h2, h3, insert_entry_size, insert_entry_lf, insert_entry_mlf]
      exact ⟨rfl, rfl, rfl⟩

theorem resize_pairs_weak {alloc : Bool} {ht : HashTab K V} {n : Nat} {k : K}
    {v : Option V} (h : hasPair (resize alloc ht n).2.table k v) :
    hasPair ht.table k v := by
  unfold resize at h
  split at h
  · exact h
  · split at h
    · exact h
    · replace h : hasPair (rehash_entries
          { ht with table := List.replicate n emptyEntry,
                    size := n, active := 0 } ht.table).table k v := h
      rcases rehash_entries_pairs_weak _ _ h with h2 | ⟨e, he, h3, h4⟩
      · obtain ⟨i, hi, hk1, -⟩ := h2
        dsimp only at hk1
        rw [getD_replicate] at hk1
        simp [emptyEntry] at hk1
      · rw [hasPair_iff_mem]
        exact ⟨e, he, h3, h4⟩

theorem remove_table_update_pairs_weak {ht : HashTab K V} {k : K}
    {v : Option V} (h : hasPair (remove_table_update ht).table k v) :
    hasPair ht.table k v := by
  unfold remove_table_update at h
  split at h
  · have h2 := resize_pairs_weak h
    exact h2
  · exact h

/-! ### Full rehash correctness when the new store has room

Folding `insert_entry` over a list of consistently hashed entries, starting
from a store satisfying the table invariant with enough free slots, every
occupied entry is re-inserted successfully: the invariant is preserved,
occupancy and active counts add up exactly, and every listed pair lands in
the result. -/

theorem rehash_entries_ok (hash : K → Nat) {j : Nat} (hj1 : 1 ≤ j)
    (hj : j ≤ 32) :
    ∀ (l : List (HTentry K V)) (acc : HashTab K V),
    acc.size = 2 ^ j →
    acc.table.length = acc.size →
    (∀ i2, i2 < acc.size →
      entryOk hash acc.size i2 (acc.table.getD i2 emptyEntry) = true) →
    (∀ i2, i2 < acc.size → runOk acc.size acc.table i2 = true) →
    countOcc acc.table + countOcc l < acc.size →
    (∀ e ∈ l, ∀ ke, e.key = some ke → e.hash_key = hash32 hash ke) →
    (rehash_entries acc l).table.length = acc.size ∧
    (∀ i2, i2 < acc.size → entryOk hash acc.size i2
      ((rehash_entries acc l).table.getD i2 emptyEntry) = true) ∧
    (∀ i2, i2 < acc.size →
      runOk acc.size (rehash_entries acc l).table i2 = true) ∧
    countOcc (rehash_entries acc l).table = countOcc acc.table + countOcc l ∧
    (rehash_entries acc l).active = acc.active + countOcc l ∧
    (∀ k v, hasPair acc.table k v → hasPair (rehash_entries acc l).table k v) ∧
    (∀ e ∈ l, ∀ ke, e.key = some ke →
      hasPair (rehash_entries acc l).table ke e.value) ∧
    (∀ k, keyCount (rehash_entries acc l).table k =
      keyCount acc.table k + l.countP (fun e => e.key == some k)) := by
  intro l
  induction l with
  | nil =>
    intro acc hsz hlen hentry hrun hroom hhash
    rw [rehash_entries_nil]
    refine ⟨hlen, hentry, hrun, ?_, ?_, fun k v h => h, ?_, ?_⟩
    · simp [countOcc]
    · simp [countOcc]
    · intro e he
      simp at he
    · intro k
      simp
  | cons e l2 ih =>
    intro acc hsz hlen hentry hrun hroom hhash
    rw [rehash_entries_cons]
    cases hke : e.key with
    | none =>
      simp only [Option.elim_none]
      have hcnt : countOcc (e :: l2) = countOcc l2 := by
        unfold countOcc
        rw [List.countP_cons]
        simp [hke]
      have hres := ih acc hsz hlen hentry hrun
        (by rw [hcnt] at hroom; exact hroom)
        (fun e2 he2 => hhash e2 (List.mem_cons_of_mem _ he2))
      obtain ⟨r1, r2, r3, r4, r5, r6, r7, r8⟩ := hres
      refine ⟨r1, r2, r3, ?_, ?_, r6, ?_, ?_⟩
      · rw [r4, hcnt]
      · rw [r5, hcnt]
      · intro e2 he2 ke hke2
        rcases List.mem_cons.mp he2 with rfl | he3
        · rw [hke] at hke2
          cases hke2
        · exact r7 e2 he3 ke hke2
      · intro k
        rw [r8, List.countP_cons]
        simp [hke]
    | some ke =>
      simp only [Option.elim_some]
      have hkh : e.hash_key = hash32 hash ke :=
        hhash e (List.mem_cons_self _ _) ke hke
      have hconse : countOcc (e :: l2) = countOcc l2 + 1 := by
        unfold countOcc
        rw [List.countP_cons]
        simp [hke]
      have hroom2 : countOcc acc.table < acc.size := by omega
      rw [hkh]
      have hpre := insert_entry_preserves hash acc ke e.value hsz hj1 hj hlen
        hentry hrun hroom2
      obtain ⟨p1, p2, p3, p4, p5, p6, p7, p8, p9, p10⟩ := hpre
      have hsz2 : (insert_entry acc (hash32 hash ke) ke e.value).2.size
          = acc.size := insert_entry_size acc (hash32 hash ke) ke e.value
      have hact2 : (insert_entry acc (hash32 hash ke) ke e.value).2.active
          = acc.active + 1 := by
        rw [insert_entry_active, p1]
        simp
      have hres := ih (insert_entry acc (hash32 hash ke) ke e.value).2
        (by rw [hsz2, hsz]) (by rw [hsz2]; exact p2)
        (by rw [hsz2]; exact p3) (by rw [hsz2]; exact p4)
        (by rw [hsz2, p6]; omega)
        (fun e2 he2 => hhash e2 (List.mem_cons_of_mem _ he2))
      rw [hsz2] at hres
      obtain ⟨r1, r2, r3, r4, r5, r6, r7, r8⟩ := hres
      refine ⟨r1, r2, r3, ?_, ?_, ?_, ?_, ?_⟩
      · rw [r4, p6]
        omega
      · rw [r5, hact2]
        omega
      · intro k v h
        exact r6 k v (p7 k v h)
      · intro e2 he2 ke2 hke2
        rcases List.mem_cons.mp he2 with rfl | he3
        · have hke3 : ke2 = ke := by
            rw [hke] at hke2
            exact (Option.some.inj hke2).symm
          subst hke3
          exact r6 _ _ p8
        · exact r7 e2 he3 ke2 hke2
      · intro k
        rw [r8, p10 k, List.countP_cons]
        simp only [hke, beq_iff_eq, Option.some.injEq]
        split_ifs with h2 <;> omega

/-! ### `resize` correctness when the new store has room -/

theorem entryOk_mem_hash (hash : K → Nat) {m : Nat} {t : List (HTentry K V)}
    (hlen : t.length = m)
    (hentry : ∀ i2, i2 < m → entryOk hash m i2 (t.getD i2 emptyEntry) = true) :
    ∀ e ∈ t, ∀ ke, e.key = some ke → e.hash_key = hash32 hash ke := by
  intro e he ke hke
  obtain ⟨i, hi, hget⟩ := List.mem_iff_getElem.mp he
  have h1 := hentry i (by omega)
  rw [getD_eq_get _ _ _ hi, List.get_eq_getElem, hget] at h1
  exact (entryOk_elim h1 hke).1

theorem resize_ok (hash : K → Nat) {j2 : Nat} (ht : HashTab K V)
    (new_size : Nat) (hnew : new_size = 2 ^ j2) (hj1 : 1 ≤ j2) (hj : j2 ≤ 32)
    (hvs : validate_size ht.size new_size = HT_SUCCESS)
    (hcnt : countOcc ht.table < new_size)
    (hhash : ∀ e ∈ ht.table, ∀ ke, e.key = some ke →
      e.hash_key = hash32 hash ke) :
    (resize true ht new_size).1 = HT_SUCCESS ∧
    (resize true ht new_size).2.size = new_size ∧
    (resize true ht new_size).2.load_factor = ht.load_factor ∧
    (resize true ht new_size).2.min_load_factor = ht.min_load_factor ∧
    (resize true ht new_size).2.table.length = new_size ∧
    (∀ i2, i2 < new_size → entryOk hash new_size i2
      ((resize true ht new_size).2.table.getD i2 emptyEntry) = true) ∧
    (∀ i2, i2 < new_size →
      runOk new_size (resize true ht new_size).2.table i2 = true) ∧
    countOcc (resize true ht new_size).2.table = countOcc ht.table ∧
    (resize true ht new_size).2.active = countOcc ht.table ∧
    (∀ k v, hasPair ht.table k v → hasPair (resize true ht new_size).2.table
      k v) ∧
    (∀ k, keyCount (resize true ht new_size).2.table k =
      keyCount ht.table k) := by
  have hrep0 : countOcc (List.replicate new_size (emptyEntry : HTentry K V))
      = 0 := countOcc_replicate _
  have hfold := rehash_entries_ok hash hj1 hj ht.table
    { ht with table := List.replicate new_size emptyEntry,
              size := new_size, active := 0 }
    hnew
    (by simp)
    (by
      intro i2 hi2
      apply entryOk_of_empty
      show ((List.replicate new_size emptyEntry).getD i2
        (emptyEntry : HTentry K V)).key = none
      rw [getD_replicate]
      rfl)
    (by
      intro i2 hi2
      apply runOk_intro
      intro hocc hpsl
      exfalso
      apply hocc
      show ((List.replicate new_size emptyEntry).getD i2
        (emptyEntry : HTentry K V)).key = none
      rw [getD_replicate]
      rfl)
    (by
      show countOcc (List.replicate new_size emptyEntry) +
        countOcc ht.table < new_size
      omega)
    hhash
  have hred : resize true ht new_size =
      (HT_SUCCESS, rehash_entries
        { ht with table := List.replicate new_size emptyEntry,
                  size := new_size, active := 0 } ht.table) := by
    unfold resize
    rw [if_neg (not_not_intro hvs), if_neg (by simp)]
  obtain ⟨r1, r2, r3, r4, r5, r6, r7, r8⟩ := hfold
  obtain ⟨f1, f2, f3⟩ := rehash_entries_frame ht.table
    { ht with table := List.replicate new_size emptyEntry,
              size := new_size, active := 0 }
  rw [hred]
  refine ⟨rfl, f1, f2, f3, r1, r2, r3, ?_, ?_, ?_, ?_⟩
  · rw [r4]
    show countOcc (List.replicate new_size emptyEntry) + countOcc ht.table
      = countOcc ht.table
    omega
  · rw [r5]
    show 0 + countOcc ht.table = countOcc ht.table
    omega
  · intro k v h
    obtain ⟨e, he, hk1, hv1⟩ := (hasPair_iff_mem _ _ _).mp h
    have h2 := r7 e he k hk1
    rw [hv1] at h2
    exact h2
  · intro k
    rw [r8]
    have hkr : keyCount ({ ht with
        table := List.replicate new_size emptyEntry,
        size := new_size, active := 0 } : HashTab K V).table k = 0 :=
      keyCount_replicate _ _
    rw [hkr, Nat.zero_add]
    rfl

/-! ### Search completeness under the table invariant

`runOk` chains backward: a slot holding a key with probe sequence length
`p` guarantees that every earlier probe step of that key hits an occupied
slot whose psl is at least the step number, so the search walk can
terminate neither on an empty slot nor on the `psl < i` test before
reaching the key. -/

theorem run_chain (hash : K → Nat) {m j : Nat} (hm : m = 2 ^ j)
    (hj1 : 1 ≤ j) (hj : j ≤ 32) {t : List (HTentry K V)} (hlen : t.length = m)
    (hentry : ∀ i2, i2 < m → entryOk hash m i2 (t.getD i2 emptyEntry) = true)
    (hrun : ∀ i2, i2 < m → runOk m t i2 = true)
    {k : K} {idx : Nat} (hidx : idx < m)
    (hkey : (t.getD idx emptyEntry).key = some k) :
    ∀ s, s ≤ (t.getD idx emptyEntry).psl →
      (t.getD (probe_func (hash32 hash k) s m) emptyEntry).key ≠ none ∧
      s ≤ (t.getD (probe_func (hash32 hash k) s m) emptyEntry).psl := by
  have hm0 : 0 < m := by
    rw [hm]
    exact Nat.pos_pow_of_pos _ (by omega)
  obtain ⟨hh, hpsl, hpos⟩ := entryOk_elim (hentry idx hidx) hkey
  have hstep : probe_func (hash32 hash k) (t.getD idx emptyEntry).psl m
      = idx := by
    rw [probe_func_eq_mod hm hj, ← hh, hpos]
  have main : ∀ d, d ≤ (t.getD idx emptyEntry).psl →
      (t.getD (probe_func (hash32 hash k)
        ((t.getD idx emptyEntry).psl - d) m) emptyEntry).key ≠ none ∧
      (t.getD idx emptyEntry).psl - d ≤
        (t.getD (probe_func (hash32 hash k)
          ((t.getD idx emptyEntry).psl - d) m) emptyEntry).psl := by
    intro d
    induction d with
    | zero =>
      intro _
      rw [Nat.sub_zero, hstep]
      refine ⟨?_, le_refl _⟩
      rw [hkey]
      exact Option.some_ne_none k
    | succ n ihn =>
      intro hd
      have hprev := ihn (by omega)
      have hs : (t.getD idx emptyEntry).psl - n =
          ((t.getD idx emptyEntry).psl - (n + 1)) + 1 := by omega
      rw [hs] at hprev
      have hsl : probe_func (hash32 hash k)
          (((t.getD idx emptyEntry).psl - (n + 1)) + 1) m < m :=
        probe_func_lt _ _ _ hm0
      have helim := runOk_elim (hrun _ hsl) hprev.1 (by omega)
      rw [prevIdx_probe_succ hm hj] at helim
      exact ⟨helim.1, by omega⟩
  intro s hs
  have h2 := main ((t.getD idx emptyEntry).psl - s) (by omega)
  have h3 : (t.getD idx emptyEntry).psl -
      ((t.getD idx emptyEntry).psl - s) = s := by omega
  rw [h3] at h2
  exact h2

theorem ht_searchFrom_walk (ht : HashTab K V) (hk : Nat) (k : K) (p : Nat)
    (hocc : (ht.table.getD (probe_func hk p ht.size) emptyEntry).hash_key
      = hk)
    (hkeyp : (ht.table.getD (probe_func hk p ht.size) emptyEntry).key
      = some k) :
    ∀ fuel s, s + fuel = ht.size → s ≤ p → p < ht.size →
    (∀ s2, s ≤ s2 → s2 < p →
      (ht.table.getD (probe_func hk s2 ht.size) emptyEntry).key ≠ none ∧
      (ht.table.getD (probe_func hk s2 ht.size) emptyEntry).key ≠ some k ∧
      s2 ≤ (ht.table.getD (probe_func hk s2 ht.size) emptyEntry).psl) →
    ht_searchFrom ht hk k s fuel =
      (ht.table.getD (probe_func hk p ht.size) emptyEntry).value := by
  intro fuel
  induction fuel with
  | zero =>
    intro s hsum hsp hp hwalk
    omega
  | succ n ih =>
    intro s hsum hsp hp hwalk
    rw [ht_searchFrom_succ]
    by_cases hsp2 : s = p
    · subst hsp2
      rw [if_neg (by rw [hkeyp]; simp), if_pos ⟨hocc, hkeyp⟩]
    · have hslt : s < p := by omega
      obtain ⟨h1, h2, h3⟩ := hwalk s (le_refl s) hslt
      rw [if_neg h1, if_neg (fun hc => h2 hc.2), if_neg (by omega)]
      exact ih (s + 1) (by omega) (by omega) hp
        (fun s2 ha hb => hwalk s2 (by omega) hb)

theorem ht_search_found (hash : K → Nat) (ht : HashTab K V) {k : K}
    {v : Option V} (hInv : CoreInv hash ht)
    (hkc : keyCount ht.table k = 1) (hp : hasPair ht.table k v)
    {len : Nat} (hlen : len ≠ 0) :
    ht_search hash ht k len = v := by
  obtain ⟨⟨j, hj31, hj1, hm⟩, hlen2, hentry, hrun⟩ := hInv
  have hm0 : 0 < ht.size := by
    rw [hm]
    exact Nat.pos_pow_of_pos _ (by omega)
  have hj32 : j ≤ 32 := by omega
  obtain ⟨idx, hidx, hkey, hval⟩ := hp
  rw [hlen2] at hidx
  obtain ⟨hh, hpsl, hpos⟩ := entryOk_elim (hentry idx hidx) hkey
  have hstep : probe_func (hash32 hash k) (ht.table.getD idx emptyEntry).psl
      ht.size = idx := by
    rw [probe_func_eq_mod hm hj32, ← hh, hpos]
  have hchain := run_chain hash hm hj1 hj32 hlen2 hentry hrun hidx hkey
  have hwalk : ∀ s2, 0 ≤ s2 → s2 < (ht.table.getD idx emptyEntry).psl →
      (ht.table.getD (probe_func (hash32 hash k) s2 ht.size)
        emptyEntry).key ≠ none ∧
      (ht.table.getD (probe_func (hash32 hash k) s2 ht.size)
        emptyEntry).key ≠ some k ∧
      s2 ≤ (ht.table.getD (probe_func (hash32 hash k) s2 ht.size)
        emptyEntry).psl := by
    intro s2 h0 hs2
    obtain ⟨hc1, hc2⟩ := hchain s2 (by omega)
    refine ⟨hc1, ?_, hc2⟩
    have hne : probe_func (hash32 hash k) s2 ht.size ≠ idx := by
      intro he
      rw [← hstep] at he
      have h4 := probe_func_inj hm hj32 (by omega) hpsl he
      omega
    exact keyCount_unique hkc (by omega) hkey
      (by rw [hlen2]; exact probe_func_lt _ _ _ hm0) hne
  unfold ht_search
  rw [if_neg hlen]
  have hw := ht_searchFrom_walk ht (hash32 hash k) k
    (ht.table.getD idx emptyEntry).psl
    (by rw [hstep]; exact hh) (by rw [hstep]; exact hkey)
    ht.size 0 (by omega) (by omega) (by omega) hwalk
  rw [hw, hstep, hval]

/-! ### Structure of a successful removal -/

theorem removeFrom_zero (hk : Nat) (k : K) (ht : HashTab K V) (pc : Nat) :
    removeFrom hk k ht pc 0 = (HT_KEY_NOT_FOUND, ht) := rfl

theorem removeFrom_success (hk : Nat) (k : K) (ht : HashTab K V) :
    ∀ (fuel pc : Nat) (ht2 : HashTab K V),
    removeFrom hk k ht pc fuel = (HT_SUCCESS, ht2) →
    ∃ pc2, (ht.table.getD (probe_func hk pc2 ht.size) emptyEntry).key
        = some k ∧
      ht2 = remove_table_update { ht with
        table := shiftFrom ht.size hk (ht.size + 1)
          (probe_func hk pc2 ht.size) (pc2 + 1)
          (ht.table.set (probe_func hk pc2 ht.size)
            (clearEntry (ht.table.getD (probe_func hk pc2 ht.size)
              emptyEntry))) } := by
  intro fuel
  induction fuel with
  | zero =>
    intro pc ht2 h
    rw [removeFrom_zero] at h
    simp at h
  | succ n ih =>
    intro pc ht2 h
    rw [removeFrom_succ] at h
    split_ifs at h with h1 h2 h3
    · simp at h
    · refine ⟨pc, h2.2, ?_⟩
      exact ((Prod.mk.injEq _ _ _ _).mp h).2.symm
    · simp at h
    · exact ih (pc + 1) ht2 h

theorem remove_entry_absent_after (ht : HashTab K V) (hk : Nat) (k : K)
    (hkc : keyCount ht.table k = 1)
    (hS : (remove_entry ht hk k).1 = HT_SUCCESS) :
    ¬ hasKey (remove_entry ht hk k).2.table k := by
  unfold remove_entry at hS ⊢
  have hpair : removeFrom hk k ht 0 ht.size =
      (HT_SUCCESS, (removeFrom hk k ht 0 ht.size).2) := by
    rw [← hS]
  obtain ⟨pc2, hkey2, heq⟩ := removeFrom_success hk k ht _ 0 _ hpair
  rw [heq]
  intro hK
  rw [hasKey_iff_pair] at hK
  obtain ⟨v, hKp⟩ := hK
  have h2 := remove_table_update_pairs_weak hKp
  have h3 := shiftFrom_hasPair _ _ _ _ h2
  obtain ⟨i2, hi2, hk2, -⟩ := h3
  rw [List.length_set] at hi2
  have hidx : probe_func hk pc2 ht.size < ht.table.length := by
    by_contra hc
    rw [getD_of_ge _ _ _ (le_of_not_lt hc)] at hkey2
    simp [emptyEntry] at hkey2
  by_cases he : i2 = probe_func hk pc2 ht.size
  · subst he
    rw [getD_set_self _ _ _ _ hi2] at hk2
    simp at hk2
  · rw [getD_set_ne _ _ _ _ _ (fun hcc => he hcc.symm)] at hk2
    exact keyCount_unique hkc hidx hkey2 hi2 he hk2

/-- C3 (amended): the claim as written fails when a key occupies several
slots (see the counterexample); with the amendment that the key is held by
exactly one slot, a successful `ht_remove` leaves the key entirely absent:
the subsequent `ht_search` returns `NotFound` (NULL) and a second
`ht_remove` returns `HT_KEY_NOT_FOUND`. -/
theorem claim_C3_deletion_amended (hash : K → Nat) (ht : HashTab K V) (k : K)
    (len : Nat) (hkc : keyCount ht.table k = 1) (hlen : len ≠ 0)
    (hS : (ht_remove hash ht k len).1 = HT_SUCCESS) :
    ht_search hash (ht_remove hash ht k len).2 k len = none ∧
    (ht_remove hash (ht_remove hash ht k len).2 k len).1
      = HT_KEY_NOT_FOUND := by
  have habs : ¬ hasKey (ht_remove hash ht k len).2.table k := by
    unfold ht_remove at hS ⊢
    rw [if_neg hlen] at hS ⊢
    exact remove_entry_absent_after ht _ k hkc hS
  refine ⟨ht_search_absent hash habs len, ?_⟩
  rw [ht_remove_absent hash habs hlen]

/-- Witness for the amended C3 on the reachable two-key table `exPair`. -/
theorem claim_C3_deletion_amended_witness :
    keyCount exPair.table 1 = 1 ∧
    (ht_remove idh exPair 1 1).1 = HT_SUCCESS ∧
    ht_search idh (ht_remove idh exPair 1 1).2 1 1 = none ∧
    (ht_remove idh (ht_remove idh exPair 1 1).2 1 1).1 = HT_KEY_NOT_FOUND :=
  ⟨by with_unfolding_all decide, by with_unfolding_all decide,
   (claim_C3_deletion_amended idh exPair 1 1 (by with_unfolding_all decide)
     (by with_unfolding_all decide) (by with_unfolding_all decide)).1,
   (claim_C3_deletion_amended idh exPair 1 1 (by with_unfolding_all decide)
     (by with_unfolding_all decide) (by with_unfolding_all decide)).2⟩

/-! ### `ht_insert` when the duplicate check misses

When `ht_search` returns NULL for the key (in particular when the key is
genuinely absent), `ht_insert` proceeds to the grow check and the
placement loop.  Under the full invariant the operation succeeds exactly
when the grow path (if triggered) passes the size validation, and on
success the invariant is preserved, the pair is stored, and all counts
move by exactly one. -/

theorem ht_insert_miss (hash : K → Nat) (ht : HashTab K V) (k : K)
    (len : Nat) (v : Option V) (hInv : Inv hash ht) (hlen : len ≠ 0)
    (hmiss : ht_search hash ht k len = none) :
    ((ht_insert hash ht k len v).1 = HT_SUCCESS ↔
      (((ht.active : ℚ) + 1 > (ht.size : ℚ) * ht.load_factor) →
        validate_size ht.size ((ht.size * 2) % 2 ^ 32) = HT_SUCCESS)) ∧
    ((ht_insert hash ht k len v).1 = HT_SUCCESS →
      Inv hash (ht_insert hash ht k len v).2 ∧
      hasPair (ht_insert hash ht k len v).2.table k v ∧
      (∀ k2, keyCount (ht_insert hash ht k len v).2.table k2 =
        keyCount ht.table k2 + (if k = k2 then 1 else 0)) ∧
      countOcc (ht_insert hash ht k len v).2.table = countOcc ht.table + 1 ∧
      (∀ k2 v2, hasPair ht.table k2 v2 →
        hasPair (ht_insert hash ht k len v).2.table k2 v2) ∧
      (ht_insert hash ht k len v).2.load_factor = ht.load_factor ∧
      (ht_insert hash ht k len v).2.min_load_factor = ht.min_load_factor ∧
      ((ht_insert hash ht k len v).2.size = ht.size ∨
       (ht_insert hash ht k len v).2.size = 2 * ht.size)) := by
  obtain ⟨⟨⟨j, hj31, hj1, hm⟩, hlen2, hentry, hrun⟩, hact, hlf0, hlf1,
    hmlf0, hmlf1, hstop⟩ := hInv
  have hj32 : j ≤ 32 := by omega
  unfold ht_insert
  rw [if_neg hlen, if_neg (by rw [hmiss]; simp)]
  by_cases hg : ((ht.active : ℚ) + 1 > (ht.size : ℚ) * ht.load_factor)
  case neg =>
    rw [if_neg hg]
    have h1 : (ht.active : ℚ) + 1 ≤ (ht.size : ℚ) * ht.load_factor :=
      not_lt.mp hg
    have h2 : (ht.size : ℚ) * ht.load_factor ≤ (ht.size : ℚ) := by
      calc (ht.size : ℚ) * ht.load_factor ≤ (ht.size : ℚ) * 1 :=
            mul_le_mul_of_nonneg_left hlf1 (by positivity)
        _ = (ht.size : ℚ) := mul_one _
    have h4 : ht.active + 1 ≤ ht.size := by exact_mod_cast le_trans h1 h2
    have hroom : countOcc ht.table < ht.size := by omega
    obtain ⟨p1, p2, p3, p4, p5, p6, p7, p8, p9, p10⟩ :=
      insert_entry_preserves hash ht k v hm hj1 hj32 hlen2 hentry hrun hroom
    refine ⟨iff_of_true p1 (fun hc => absurd hc hg), fun hS => ?_⟩
    have hInv2 : Inv hash (insert_entry ht (hash32 hash k) k v).2 := by
      refine ⟨⟨⟨j, hj31, hj1, ?_⟩, ?_, ?_, ?_⟩, ?_, ?_, ?_, ?_, ?_, ?_⟩
      · rw [insert_entry_size]
        exact hm
      · rw [insert_entry_size]
        exact p2
      · rw [insert_entry_size]
        exact p3
      · rw [insert_entry_size]
        exact p4
      · rw [insert_entry_active, p1, p6, hact]
        simp
      · rw [insert_entry_lf]
        exact hlf0
      · rw [insert_entry_lf]
        exact hlf1
      · rw [insert_entry_mlf]
        exact hmlf0
      · rw [insert_entry_lf, insert_entry_mlf]
        exact hmlf1
      · rw [insert_entry_size]
        exact p5
    exact ⟨hInv2, p8, p10, p6, p7, insert_entry_lf _ _ _ _,
      insert_entry_mlf _ _ _ _, Or.inl (insert_entry_size _ _ _ _)⟩
  case pos =>
    rw [if_pos hg]
    have hmod : (ht.size * 2) % 2 ^ 32 = 2 ^ (j + 1) := by
      have hpow : ht.size * 2 = 2 ^ (j + 1) := by
        rw [hm, pow_succ]
      rw [hpow]
      exact Nat.mod_eq_of_lt (Nat.pow_lt_pow_right (by omega) (by omega))
    by_cases hvs : validate_size ht.size ((ht.size * 2) % 2 ^ 32) = HT_SUCCESS
    case neg =>
      rw [if_pos hvs]
      exact ⟨iff_of_false hvs (fun hr => hvs (hr hg)),
        fun hS => absurd hS hvs⟩
    case pos =>
      rw [if_neg (not_not_intro hvs)]
      have hv2 : ¬((ht.size * 2) % 2 ^ 32 = 0 ∨
          (ht.size * 2) % 2 ^ 32 > (2 ^ 32 - 1) / 2) := by
        intro hc
        unfold validate_size at hvs
        rw [if_pos hc] at hvs
        cases hvs
      push_neg at hv2
      have hval31 : ((2 : Nat) ^ 32 - 1) / 2 = 2 ^ 31 - 1 := by norm_num
      have hj30 : j + 1 ≤ 30 := by
        by_contra hc
        have h31 : (2 : Nat) ^ 31 ≤ 2 ^ (j + 1) :=
          Nat.pow_le_pow_right (by omega) (by omega)
        rw [hmod, hval31] at hv2
        have hv3 := hv2.2
        have h31n : (2 : Nat) ^ 31 = 2147483648 := by norm_num
        omega
      have hple : countOcc ht.table ≤ ht.size := by
        have hc1 := countOcc_le_length ht.table
        omega
      have hgrow : ht.size < (ht.size * 2) % 2 ^ 32 := by
        rw [hmod, hm]
        have h5 : (2 : Nat) ^ j < 2 ^ (j + 1) :=
          Nat.pow_lt_pow_right (by omega) (by omega)
        omega
      obtain ⟨q1, q2, q3, q4, q5, q6, q7, q8, q9, q10, q11⟩ :=
        resize_ok hash ht ((ht.size * 2) % 2 ^ 32) hmod (by omega) (by omega)
          hvs (by omega) (entryOk_mem_hash hash hlen2 hentry)
      rw [if_neg (not_not_intro q1)]
      obtain ⟨p1, p2, p3, p4, p5, p6, p7, p8, p9, p10⟩ :=
        insert_entry_preserves hash
          (resize true ht ((ht.size * 2) % 2 ^ 32)).2 k v (q2.trans hmod)
          (by omega) (by omega) (q5.trans q2.symm) (by rw [q2]; exact q6)
          (by rw [q2]; exact q7) (by rw [q2, q8]; omega)
      refine ⟨iff_of_true p1 (fun _ => hvs), fun hS => ?_⟩
      have hInv2 : Inv hash (insert_entry
          (resize true ht ((ht.size * 2) % 2 ^ 32)).2 (hash32 hash k) k v).2
          := by
        refine ⟨⟨⟨j + 1, by omega, by omega, ?_⟩, ?_, ?_, ?_⟩,
          ?_, ?_, ?_, ?_, ?_, ?_⟩
        · rw [insert_entry_size, q2, hmod]
        · rw [insert_entry_size]
          exact p2
        · rw [insert_entry_size]
          exact p3
        · rw [insert_entry_size]
          exact p4
        · rw [insert_entry_active, p1, p6, q8, q9]
          simp
        · rw [insert_entry_lf, q3]
          exact hlf0
        · rw [insert_entry_lf, q3]
          exact hlf1
        · rw [insert_entry_mlf, q4]
          exact hmlf0
        · rw [insert_entry_lf, insert_entry_mlf, q3, q4]
          exact hmlf1
        · rw [insert_entry_size]
          exact p5
      refine ⟨hInv2, p8, ?_, ?_, ?_, ?_, ?_, ?_⟩
      · intro k2
        rw [p10 k2, q11 k2]
      · rw [p6, q8]
      · intro k2 v2 h
        exact p7 k2 v2 (q10 k2 v2 h)
      · rw [insert_entry_lf, q3]
      · rw [insert_entry_mlf, q4]
      · right
        rw [insert_entry_size, q2, hmod, hm, pow_succ]
        ring

/-! ## Claim theorems: round-trip, duplicates, invariant, no false failure,
NULL values -/

/-- C1: round-trip.  A key absent from the table — the state produced by
any prior sequence of insert/remove operations that never inserted `k` —
whose `ht_insert` reports success is found by the subsequent `ht_search`,
which returns exactly the inserted value. -/
theorem claim_C1_roundtrip (hash : K → Nat) (ht : HashTab K V) (k : K)
    (len : Nat) (v : Option V) (hInv : Inv hash ht)
    (habs : ¬ hasKey ht.table k) (hlen : len ≠ 0)
    (hS : (ht_insert hash ht k len v).1 = HT_SUCCESS) :
    ht_search hash (ht_insert hash ht k len v).2 k len = v := by
  have hmiss : ht_search hash ht k len = none := ht_search_absent hash habs len
  obtain ⟨-, hpost⟩ := ht_insert_miss hash ht k len v hInv hlen hmiss
  obtain ⟨hInv2, hpair, hkc, -, -, -, -, -⟩ := hpost hS
  have hkc0 : keyCount ht.table k = 0 := (keyCount_eq_zero _ _).mpr habs
  have hkc1 : keyCount (ht_insert hash ht k len v).2.table k = 1 := by
    rw [hkc k, hkc0]
    simp
  exact ht_search_found hash _ hInv2.1 hkc1 hpair hlen

/-- Witness for C1 on the fresh default-configuration table. -/
theorem claim_C1_roundtrip_witness :
    Inv idh exFresh ∧ ¬ hasKey exFresh.table 5 ∧
    (ht_insert idh exFresh 5 1 (some 9)).1 = HT_SUCCESS ∧
    ht_search idh (ht_insert idh exFresh 5 1 (some 9)).2 5 1 = some 9 :=
  ⟨by with_unfolding_all decide, by with_unfolding_all decide,
   by with_unfolding_all decide,
   claim_C1_roundtrip idh exFresh 5 1 (some 9) (by with_unfolding_all decide)
     (by with_unfolding_all decide) (by with_unfolding_all decide)
     (by with_unfolding_all decide)⟩

/-- C2 (amended): the claim as written fails for NULL-valued keys (see the
counterexample); amended with the requirement that the key's stored value
is non-NULL and the key occupies exactly one slot, re-inserting it returns
`HT_KEY_EXISTS` with the table bit-for-bit unchanged: every slot, the
active count, the capacity and the stored value are untouched. -/
theorem claim_C2_duplicate_insert_amended (hash : K → Nat) (ht : HashTab K V)
    (k : K) (len : Nat) (v v2 : Option V) (hInv : CoreInv hash ht)
    (hkc : keyCount ht.table k = 1) (hpair : hasPair ht.table k v)
    (hv : v ≠ none) (hlen : len ≠ 0) :
    ht_insert hash ht k len v2 = (HT_KEY_EXISTS, ht) := by
  have hf := ht_search_found hash ht hInv hkc hpair hlen
  unfold ht_insert
  rw [if_neg hlen,
    if_pos (by rw [hf]; exact Option.isSome_iff_ne_none.mpr hv)]

/-- Witness for the amended C2 on the reachable two-key table `exPair`. -/
theorem claim_C2_duplicate_insert_amended_witness :
    ht_insert idh exPair 0 1 (some 99) = (HT_KEY_EXISTS, exPair) :=
  claim_C2_duplicate_insert_amended idh exPair 0 1 (some 10) (some 99)
    (by with_unfolding_all decide) (by with_unfolding_all decide)
    (by with_unfolding_all decide) (by with_unfolding_all decide)
    (by with_unfolding_all decide)

/-- C4 (amended): the bare implication "occupied probed slot with
`psl < i` implies the key is absent" is false as stated (see the
counterexample — the key may sit at an earlier probe step).  The corrected
invariant, which is what search and removal actually rely on, adds the
hypothesis that the walk reached step `i` without matching the key at any
earlier step; under the table invariant this does imply absence. -/
theorem claim_C4_rh_invariant_amended (hash : K → Nat) (ht : HashTab K V)
    (k : K) (i : Nat) (hInv : CoreInv hash ht)
    (hocc : (ht.table.getD (probe_func (hash32 hash k) i ht.size)
      emptyEntry).key ≠ none)
    (hpsl : (ht.table.getD (probe_func (hash32 hash k) i ht.size)
      emptyEntry).psl < i)
    (hnomatch : ∀ s, s < i →
      ¬((ht.table.getD (probe_func (hash32 hash k) s ht.size)
          emptyEntry).hash_key = hash32 hash k ∧
        (ht.table.getD (probe_func (hash32 hash k) s ht.size)
          emptyEntry).key = some k)) :
    ¬ hasKey ht.table k := by
  obtain ⟨⟨j, hj31, hj1, hm⟩, hlen2, hentry, hrun⟩ := hInv
  have hj32 : j ≤ 32 := by omega
  rintro ⟨idx, hidx, hkey⟩
  rw [hlen2] at hidx
  obtain ⟨hh, hpsl2, hpos⟩ := entryOk_elim (hentry idx hidx) hkey
  have hstep : probe_func (hash32 hash k) (ht.table.getD idx emptyEntry).psl
      ht.size = idx := by
    rw [probe_func_eq_mod hm hj32, ← hh, hpos]
  by_cases hpi : (ht.table.getD idx emptyEntry).psl < i
  · exact hnomatch _ hpi (by rw [hstep]; exact ⟨hh, hkey⟩)
  · have hchain := run_chain hash hm hj1 hj32 hlen2 hentry hrun hidx hkey i
      (by omega)
    have h2 := hchain.2
    omega

/-- Witness for the amended C4 on `exPair` with the absent key 4 at probe
step 1 (the probed slot holds key 1 with psl 0, step 0 does not match). -/
theorem claim_C4_rh_invariant_amended_witness :
    CoreInv idh exPair ∧
    (exPair.table.getD (probe_func (hash32 idh 4) 1 exPair.size)
      emptyEntry).key ≠ none ∧
    (exPair.table.getD (probe_func (hash32 idh 4) 1 exPair.size)
      emptyEntry).psl < 1 ∧
    ¬ hasKey exPair.table 4 :=
  ⟨by with_unfolding_all decide, by with_unfolding_all decide,
   by with_unfolding_all decide,
   claim_C4_rh_invariant_amended idh exPair 4 1
     (by with_unfolding_all decide) (by with_unfolding_all decide)
     (by with_unfolding_all decide) (by with_unfolding_all decide)⟩

/-- C8: in a state with a free slot — which is what the load-factor
trigger guarantees, `active` being the occupancy count — the placement
loop of `insert_entry` finds an empty slot within `capacity` probe steps:
the result is `HT_SUCCESS`, and the internal-failure branch
(`HT_FAILURE` on probe exhaustion) is unreachable. -/
theorem claim_C8_no_false_failure (hash : K → Nat) {j : Nat}
    (ht : HashTab K V) (hk : Nat) (key : K) (v : Option V)
    (hm : ht.size = 2 ^ j) (hj : j ≤ 32)
    (hlen : ht.table.length = ht.size)
    (hact : ht.active = countOcc ht.table) (hlt : ht.active < ht.size) :
    (insert_entry ht hk key v).1 = HT_SUCCESS ∧
    (insert_entry ht hk key v).1 ≠ HT_FAILURE := by
  have hroom : countOcc ht.table < ht.size := by omega
  obtain ⟨eidx, heidx, hempty⟩ := exists_empty_of_countOcc_lt ht.table
    (by omega)
  obtain ⟨d, hd, hprobe⟩ := probe_func_surj hm hj hk 0
    (show eidx < ht.size by omega)
  have hS : (insert_entry ht hk key v).1 = HT_SUCCESS := by
    rw [insert_entry_fst]
    apply insertFrom_success_of_empty hm hj
    · exact hlen
    · omega
    · exact ⟨d, by omega, by rw [hprobe]; exact hempty⟩
  refine ⟨hS, ?_⟩
  rw [hS]
  simp

/-- Witness for C8 on `exPair` (4 slots, 2 occupied). -/
theorem claim_C8_no_false_failure_witness :
    exPair.active < exPair.size ∧
    (insert_entry exPair (hash32 idh 7) 7 (some 77)).1 = HT_SUCCESS :=
  ⟨by with_unfolding_all decide,
   (claim_C8_no_false_failure idh exPair (hash32 idh 7) 7 (some 77)
     (show exPair.size = 2 ^ 2 from by with_unfolding_all decide)
     (by omega) (by with_unfolding_all decide)
     (by with_unfolding_all decide) (by with_unfolding_all decide)).1⟩

/-- `validate_size` accepts any doubling below the growth ceiling. -/
theorem validate_size_double {m : Nat} (h0 : 0 < m) (hle : m ≤ 2 ^ 29) :
    validate_size m ((m * 2) % 2 ^ 32) = HT_SUCCESS := by
  have h29 : (2 : Nat) ^ 29 = 536870912 := by norm_num
  have h32 : (2 : Nat) ^ 32 = 4294967296 := by norm_num
  have hmod : (m * 2) % 2 ^ 32 = m * 2 := Nat.mod_eq_of_lt (by omega)
  unfold validate_size
  rw [hmod, if_neg (by rw [h32]; push_neg; constructor <;> omega)]

/-- C10: `ht_insert` does not validate the value pointer.  From any valid
state where `k` is absent (and the capacity is below the growth ceiling so
the grow paths validate), inserting `k` with a NULL value returns
`HT_SUCCESS`; the subsequent `ht_search` of `k` returns NULL —
indistinguishable from `NotFound` — and a second insert of the same key
returns `HT_SUCCESS` again, leaving two occupied slots holding `k`. -/
theorem claim_C10_null_value_insert (hash : K → Nat) (ht : HashTab K V)
    (k : K) (len : Nat) (hInv : Inv hash ht) (habs : ¬ hasKey ht.table k)
    (hlen : len ≠ 0) (hsz : ht.size ≤ 2 ^ 28) :
    (ht_insert hash ht k len none).1 = HT_SUCCESS ∧
    ht_search hash (ht_insert hash ht k len none).2 k len = none ∧
    (ht_insert hash (ht_insert hash ht k len none).2 k len none).1
      = HT_SUCCESS ∧
    keyCount (ht_insert hash (ht_insert hash ht k len none).2 k len
      none).2.table k = 2 := by
  have h28 : (2 : Nat) ^ 28 = 268435456 := by norm_num
  have h29 : (2 : Nat) ^ 29 = 536870912 := by norm_num
  have h2sz : 2 ≤ ht.size := by
    obtain ⟨⟨⟨j0, hj031, hj01, hm0⟩, -⟩, -⟩ := hInv
    rw [hm0]
    calc 2 = 2 ^ 1 := rfl
    _ ≤ 2 ^ j0 := Nat.pow_le_pow_right (by omega) hj01
  have hmiss : ht_search hash ht k len = none := ht_search_absent hash habs len
  obtain ⟨hiff, hpost⟩ := ht_insert_miss hash ht k len none hInv hlen hmiss
  have hS1 : (ht_insert hash ht k len none).1 = HT_SUCCESS := by
    apply hiff.mpr
    intro _
    exact validate_size_double (by omega) (by omega)
  obtain ⟨hInv2, hpair2, hkc2, hcnt2, hpairs2, hlf2, hmlf2, hsz2⟩ :=
    hpost hS1
  have hkc0 : keyCount ht.table k = 0 := (keyCount_eq_zero _ _).mpr habs
  have hkc1 : keyCount (ht_insert hash ht k len none).2.table k = 1 := by
    rw [hkc2 k, hkc0]
    simp
  have hsearch2 : ht_search hash (ht_insert hash ht k len none).2 k len
      = none := ht_search_found hash _ hInv2.1 hkc1 hpair2 hlen
  obtain ⟨hiff3, hpost3⟩ := ht_insert_miss hash _ k len none hInv2 hlen
    hsearch2
  have hS3 : (ht_insert hash (ht_insert hash ht k len none).2 k len none).1
      = HT_SUCCESS := by
    apply hiff3.mpr
    intro _
    rcases hsz2 with h | h <;>
      exact validate_size_double (by omega) (by omega)
  obtain ⟨-, -, hkc3, -, -, -, -, -⟩ := hpost3 hS3
  refine ⟨hS1, hsearch2, hS3, ?_⟩
  rw [hkc3 k, hkc1]
  simp

/-- Witness for C10 on the fresh default-configuration table with key 3. -/
theorem claim_C10_null_value_insert_witness :
    Inv idh exFresh ∧ ¬ hasKey exFresh.table 3 ∧
    (ht_insert idh exFresh 3 1 none).1 = HT_SUCCESS ∧
    ht_search idh (ht_insert idh exFresh 3 1 none).2 3 1 = none ∧
    (ht_insert idh (ht_insert idh exFresh 3 1 none).2 3 1 none).1
      = HT_SUCCESS ∧
    keyCount (ht_insert idh (ht_insert idh exFresh 3 1 none).2 3 1
      none).2.table 3 = 2 := by
  have h := claim_C10_null_value_insert idh exFresh 3 1
    (by with_unfolding_all decide) (by with_unfolding_all decide)
    (by with_unfolding_all decide) (by with_unfolding_all decide)
  exact ⟨by with_unfolding_all decide, by with_unfolding_all decide,
    h.1, h.2.1, h.2.2.1, h.2.2.2⟩

/-! ### Capacity evolution and reachable states -/

theorem resize_size (alloc : Bool) (ht : HashTab K V) (n : Nat) :
    (resize alloc ht n).2.size = ht.size ∨ (resize alloc ht n).2.size = n := by
  unfold resize
  split
  · exact Or.inl rfl
  · split
    · exact Or.inl rfl
    · exact Or.inr ((rehash_entries_frame ht.table _).1)

theorem remove_table_update_size (ht : HashTab K V) :
    (remove_table_update ht).size = ht.size ∨
    (((ht.active - 1 : Nat) : ℚ) < (ht.size : ℚ) * ht.min_load_factor ∧
     2 < ht.size ∧ (remove_table_update ht).size = ht.size / 2) := by
  unfold remove_table_update
  by_cases h : ((ht.active - 1 : Nat) : ℚ) < (ht.size : ℚ) *
      ht.min_load_factor ∧ 2 < ht.size
  · rw [if_pos h]
    rcases resize_size true { ht with active := ht.active - 1 } (ht.size / 2)
      with h2 | h2
    · exact Or.inl h2
    · exact Or.inr ⟨h.1, h.2, h2⟩
  · rw [if_neg h]
    exact Or.inl rfl

theorem removeFrom_size (hk : Nat) (k : K) (ht : HashTab K V) :
    ∀ fuel pc, (removeFrom hk k ht pc fuel).2.size = ht.size ∨
    (((ht.active - 1 : Nat) : ℚ) < (ht.size : ℚ) * ht.min_load_factor ∧
     2 < ht.size ∧ (removeFrom hk k ht pc fuel).2.size = ht.size / 2) := by
  intro fuel
  induction fuel with
  | zero =>
    intro pc
    rw [removeFrom_zero]
    exact Or.inl rfl
  | succ n ih =>
    intro pc
    rw [removeFrom_succ]
    split_ifs with h1 h2 h3
    · exact Or.inl rfl
    · have hX := remove_table_update_size { ht with
        table := shiftFrom ht.size hk (ht.size + 1)
          (probe_func hk pc ht.size) (pc + 1)
          (ht.table.set (probe_func hk pc ht.size)
            (clearEntry (ht.table.getD (probe_func hk pc ht.size)
              emptyEntry))) }
      rcases hX with h4 | h4
      · exact Or.inl h4
      · exact Or.inr h4
    · exact Or.inl rfl
    · exact ih (pc + 1)

theorem ht_remove_size (hash : K → Nat) (ht : HashTab K V) (k : K)
    (len : Nat) :
    (ht_remove hash ht k len).2.size = ht.size ∨
    (((ht.active - 1 : Nat) : ℚ) < (ht.size : ℚ) * ht.min_load_factor ∧
     2 < ht.size ∧ (ht_remove hash ht k len).2.size = ht.size / 2) := by
  unfold ht_remove remove_entry
  split
  · exact Or.inl rfl
  · exact removeFrom_size _ _ _ _ _

theorem ht_insert_size_cases (hash : K → Nat) (ht : HashTab K V) (k : K)
    (len : Nat) (v : Option V) :
    (ht_insert hash ht k len v).2.size = ht.size ∨
    (((ht.active : ℚ) + 1 > (ht.size : ℚ) * ht.load_factor) ∧
     validate_size ht.size ((ht.size * 2) % 2 ^ 32) = HT_SUCCESS ∧
     (ht_insert hash ht k len v).2.size = (ht.size * 2) % 2 ^ 32) := by
  unfold ht_insert
  split_ifs with h1 h2 h3 h4 h5
  · exact Or.inl rfl
  · exact Or.inl rfl
  · exact Or.inl rfl
  · rcases resize_size true ht ((ht.size * 2) % 2 ^ 32) with h6 | h6
    · exact Or.inl h6
    · exact Or.inr ⟨h3, not_not.mp h4, h6⟩
  · rw [insert_entry_size]
    rcases resize_size true ht ((ht.size * 2) % 2 ^ 32) with h6 | h6
    · exact Or.inl h6
    · exact Or.inr ⟨h3, not_not.mp h4, h6⟩
  · rw [insert_entry_size]
    exact Or.inl rfl

/-- Table states reachable through the public API from a successful
`ht_create`. -/
inductive Reachable (hash : K → Nat) : HashTab K V → Prop where
  | create (lf mlf : ℚ) (ht : HashTab K V) :
      ht_create K V lf mlf = some ht → Reachable hash ht
  | insert (ht : HashTab K V) (k : K) (len : Nat) (v : Option V) :
      Reachable hash ht → Reachable hash (ht_insert hash ht k len v).2
  | remove (ht : HashTab K V) (k : K) (len : Nat) :
      Reachable hash ht → Reachable hash (ht_remove hash ht k len).2

theorem Reachable_size (hash : K → Nat) (ht : HashTab K V)
    (h : Reachable hash ht) : ∃ j, 1 ≤ j ∧ j ≤ 30 ∧ ht.size = 2 ^ j := by
  induction h with
  | create lf mlf ht2 hc =>
    unfold ht_create at hc
    split_ifs at hc
    cases hc
    exact ⟨1, by omega, by omega, rfl⟩
  | insert ht2 k len v hr ih =>
    obtain ⟨j, hj1, hj30, hsz⟩ := ih
    rcases ht_insert_size_cases hash ht2 k len v with h2 | ⟨htrig, hval, h2⟩
    · exact ⟨j, hj1, hj30, by rw [h2, hsz]⟩
    · have hmod : (ht2.size * 2) % 2 ^ 32 = 2 ^ (j + 1) := by
        have hpow : ht2.size * 2 = 2 ^ (j + 1) := by rw [hsz, pow_succ]
        rw [hpow]
        exact Nat.mod_eq_of_lt (Nat.pow_lt_pow_right (by omega) (by omega))
      have hv2 : ¬((ht2.size * 2) % 2 ^ 32 = 0 ∨
          (ht2.size * 2) % 2 ^ 32 > (2 ^ 32 - 1) / 2) := by
        intro hcc
        unfold validate_size at hval
        rw [if_pos hcc] at hval
        cases hval
      push_neg at hv2
      have hval31 : ((2 : Nat) ^ 32 - 1) / 2 = 2 ^ 31 - 1 := by norm_num
      have hj31b : j + 1 ≤ 30 := by
        by_contra hcc
        have h31 : (2 : Nat) ^ 31 ≤ 2 ^ (j + 1) :=
          Nat.pow_le_pow_right (by omega) (by omega)
        rw [hmod, hval31] at hv2
        have h31n : (2 : Nat) ^ 31 = 2147483648 := by norm_num
        have hv3 := hv2.2
        omega
      exact ⟨j + 1, by omega, hj31b, by rw [h2, hmod]⟩
  | remove ht2 k len hr ih =>
    obtain ⟨j, hj1, hj30, hsz⟩ := ih
    rcases ht_remove_size hash ht2 k len with h2 | ⟨-, hgt, h2⟩
    · exact ⟨j, hj1, hj30, by rw [h2, hsz]⟩
    · have hj2 : 2 ≤ j := by
        by_contra hcc
        have hj1e : j = 1 := by omega
        rw [hj1e] at hsz
        rw [hsz] at hgt
        norm_num at hgt
      refine ⟨j - 1, by omega, by omega, ?_⟩
      rw [h2, hsz]
      have hp : (2 : Nat) ^ j = 2 ^ (j - 1) * 2 := by
        rw [← pow_succ]
        congr 1
        omega
      rw [hp]
      omega

/-- C5: every reachable capacity is a power of two and at least 2 (a
fresh table has capacity exactly 2 and zero active entries); an insert
changes the capacity only when the grow trigger `active + 1 > capacity·lf`
held (and then to the doubled size), and a remove changes it only when the
shrink trigger `active < capacity·mlf` held with the capacity above its
floor of 2 (and then to half). -/
theorem claim_C5_capacity_invariants (hash : K → Nat) :
    (∀ ht : HashTab K V, Reachable hash ht →
      (∃ j, 1 ≤ j ∧ j ≤ 30 ∧ ht.size = 2 ^ j) ∧ 2 ≤ ht.size) ∧
    (∀ (lf mlf : ℚ) (ht : HashTab K V), ht_create K V lf mlf = some ht →
      ht.size = 2 ∧ ht.active = 0) ∧
    (∀ (ht : HashTab K V) (k : K) (len : Nat) (v : Option V),
      (ht_insert hash ht k len v).2.size ≠ ht.size →
      ((ht.active : ℚ) + 1 > (ht.size : ℚ) * ht.load_factor ∧
       (ht_insert hash ht k len v).2.size = (ht.size * 2) % 2 ^ 32)) ∧
    (∀ (ht : HashTab K V) (k : K) (len : Nat),
      (ht_remove hash ht k len).2.size ≠ ht.size →
      (((ht.active - 1 : Nat) : ℚ) < (ht.size : ℚ) * ht.min_load_factor ∧
       2 < ht.size ∧ (ht_remove hash ht k len).2.size = ht.size / 2)) := by
  refine ⟨?_, ?_, ?_, ?_⟩
  · intro ht hr
    obtain ⟨j, hj1, hj30, hsz⟩ := Reachable_size hash ht hr
    refine ⟨⟨j, hj1, hj30, hsz⟩, ?_⟩
    rw [hsz]
    calc 2 = 2 ^ 1 := rfl
    _ ≤ 2 ^ j := Nat.pow_le_pow_right (by omega) hj1
  · intro lf mlf ht hc
    unfold ht_create at hc
    split_ifs at hc
    cases hc
    exact ⟨rfl, rfl⟩
  · intro ht k len v hne
    rcases ht_insert_size_cases hash ht k len v with h | ⟨h1, h2, h3⟩
    · exact absurd h hne
    · exact ⟨h1, h3⟩
  · intro ht k len hne
    rcases ht_remove_size hash ht k len with h | h
    · exact absurd h hne
    · exact h

/-- Witness for C5: the fresh table, a concrete growing insert
(capacity 4 to 8) and a concrete shrinking remove (capacity 8 to 4). -/
theorem claim_C5_capacity_invariants_witness :
    ((∃ j, 1 ≤ j ∧ j ≤ 30 ∧ exFresh.size = 2 ^ j) ∧ 2 ≤ exFresh.size) ∧
    ((exG4.active : ℚ) + 1 > (exG4.size : ℚ) * exG4.load_factor ∧
     (ht_insert idh exG4 4 1 (some 104)).2.size = (exG4.size * 2) % 2 ^ 32) ∧
    (((exG6.active - 1 : Nat) : ℚ) < (exG6.size : ℚ) * exG6.min_load_factor ∧
     2 < exG6.size ∧ (ht_remove idh exG6 0 1).2.size = exG6.size / 2) :=
  ⟨(claim_C5_capacity_invariants idh).1 exFresh
      (Reachable.create (mkRat 3 4) (mkRat 1 4) exFresh
        (by with_unfolding_all decide)),
   (claim_C5_capacity_invariants idh).2.2.1 exG4 4 1 (some 104)
     (by with_unfolding_all decide),
   (claim_C5_capacity_invariants idh).2.2.2 exG6 0 1
     (by with_unfolding_all decide)⟩

end OpenTable
